import Mathlib

/-!
Verification development for the LevelDB data-block reader
(`table/block.cc`): a shallow embedding of the block format decoder and of
the prefix-compressed block iterator, together with proofs of the
specification's claims about it.

Modelling conventions:
* a byte buffer is a `List Nat` of byte values; reads use `byteAt`,
  which returns `0` out of range (every in-contract read in the source is
  in range, and the bounds are carried as hypotheses where they matter);
* `uint32_t` arithmetic is `Nat` with an explicit `% 2 ^ 32` at the spots
  where the C computation can wrap (the `DecodeEntry` length guard and
  `NextEntryOffset`);
* the iterator's `value_` slice is `Option (Nat × Nat)` — an offset/length
  view into the block, or `none` for a default-constructed slice, which in
  the C++ points at an empty string constant and not into the block;
* loops are written with explicit fuel large enough for every terminating
  execution; the lemmas below show the fuel is never exhausted on the
  executions the claims are about.
-/

/-- Status of an iterator: mirrors the `ok`/`Corruption` statuses used by
`table/block.cc`. -/
inductive Status where
  | ok : Status
  | corruption : String → Status
deriving DecidableEq

/-- Read one byte of a buffer (`0` out of range; all in-contract reads in
the source are in range). -/
def byteAt (d : List Nat) (i : Nat) : Nat := d.getD i 0

/-- The byte range `[p, p+n)` of a buffer, truncated at the buffer's end. -/
def listSlice (d : List Nat) (p n : Nat) : List Nat := (d.drop p).take n

/-- Modelled from the spec: little-endian fixed-width 4-byte decoding
(`DecodeFixed32` of `util/coding`, which is not among the sources here;
the spec fixes the restart array and count to be 4-byte little-endian
values). -/
def DecodeFixed32 (d : List Nat) (p : Nat) : Nat :=
  byteAt d p + 2 ^ 8 * byteAt d (p + 1) + 2 ^ 16 * byteAt d (p + 2) +
    2 ^ 24 * byteAt d (p + 3)

/-- Modelled from the spec: one step of the base-128 continuation-bit
varint decoder (`GetVarint32Ptr` of `util/coding`, which is not among the
sources here; the spec describes the slow-path headers as base-128
continuation-bit integers bounded by `limit`).  `steps` is the number of
bytes a 32-bit varint may still occupy (at most five in total); the
accumulated value is truncated to 32 bits like the `uint32_t` result of the
C decoder. -/
def getVarint32Loop (d : List Nat) (limit : Nat) :
    Nat → Nat → Nat → Nat → Option (Nat × Nat)
  | 0, _, _, _ => none
  | steps + 1, p, shift, acc =>
    if p < limit then
      let b := byteAt d p
      if b < 128 then some ((acc + b * 2 ^ shift) % 2 ^ 32, p + 1)
      else getVarint32Loop d limit steps (p + 1) (shift + 7) (acc + (b - 128) * 2 ^ shift)
    else none

/-- Modelled from the spec: 32-bit varint decoding starting at `p`, bounded
by `limit`; returns the decoded value and the position just past it. -/
def GetVarint32 (d : List Nat) (p limit : Nat) : Option (Nat × Nat) :=
  getVarint32Loop d limit 5 p 0 0

/-- `DecodeEntry` of `table/block.cc`: decode the header of the entry
starting at `p`, bounded by `limit`.  Returns `(shared, non_shared,
value_length, key_suffix_start)` or `none` on failure.  The final guard
compares `uint32_t` quantities, so both sides carry the C truncation. -/
def DecodeEntry (d : List Nat) (p limit : Nat) : Option (Nat × Nat × Nat × Nat) :=
  if limit - p < 3 then none
  else
    let s0 := byteAt d p
    let n0 := byteAt d (p + 1)
    let v0 := byteAt d (p + 2)
    let parsed : Option (Nat × Nat × Nat × Nat) :=
      if s0 ||| n0 ||| v0 < 128 then some (s0, n0, v0, p + 3)
      else
        match GetVarint32 d p limit with
        | none => none
        | some (sh, p1) =>
          match GetVarint32 d p1 limit with
          | none => none
          | some (nsh, p2) =>
            match GetVarint32 d p2 limit with
            | none => none
            | some (vl, p3) => some (sh, nsh, vl, p3)
    match parsed with
    | none => none
    | some (sh, nsh, vl, q) =>
      if (limit - q) % 2 ^ 32 < (nsh + vl) % 2 ^ 32 then none
      else some (sh, nsh, vl, q)

/-- The immutable configuration of a live `Block::Iter`: the block bytes,
the offset of the restart array, the number of restart points, and the
injected comparator (as an `Int`-valued three-way comparison). -/
structure BlockCfg where
  data : List Nat
  restarts : Nat
  numRestarts : Nat
  cmp : List Nat → List Nat → Int

/-- The mutable state of a `Block::Iter`: offset of the current entry,
index of the restart region the cursor falls in, the reconstructed key, the
current value view (`none` for the default-constructed slice), and the
status. -/
structure IterState where
  current : Nat
  restartIndex : Nat
  key : List Nat
  value : Option (Nat × Nat)
  status : Status
deriving DecidableEq

namespace Iter

/-- `Block::Iter::Valid`: the cursor is valid exactly when the current
offset lies before the restart array. -/
def Valid (cfg : BlockCfg) (s : IterState) : Bool :=
  decide (s.current < cfg.restarts)

/-- `Block::Iter::GetRestartPoint`: fixed32 read of the `index`-th restart
offset. -/
def GetRestartPoint (cfg : BlockCfg) (index : Nat) : Nat :=
  DecodeFixed32 cfg.data (cfg.restarts + index * 4)

/-- `Block::Iter::SeekToRestartPoint`: clear the key, set the restart
index, and park the value as a zero-length view at the restart offset
(`current_` is fixed by the next `ParseNextKey`). -/
def SeekToRestartPoint (cfg : BlockCfg) (index : Nat) (s : IterState) : IterState :=
  { s with key := [], restartIndex := index,
           value := some (GetRestartPoint cfg index, 0) }

/-- `Block::Iter::NextEntryOffset`: offset just past the current value, as
the `uint32_t` result of the pointer subtraction.  For the
default-constructed slice (`value = none`) the C expression subtracts two
unrelated pointers; it is never evaluated on an in-contract execution (the
positioning operations all set `value_` first), and we model it as the
end-of-entries offset. -/
def NextEntryOffset (cfg : BlockCfg) (s : IterState) : Nat :=
  match s.value with
  | some (o, l) => (o + l) % 2 ^ 32
  | none => cfg.restarts

/-- `Block::Iter::CorruptionError`: park at the restart array, clear key
and value (a cleared slice is the default slice again), and record the
corruption status. -/
def CorruptionError (cfg : BlockCfg) : IterState :=
  { current := cfg.restarts, restartIndex := cfg.numRestarts,
    key := [], value := none, status := .corruption "bad entry in block" }

/-- The `restart_index_` advance loop at the end of
`Block::Iter::ParseNextKey`: step forward while the next restart point's
offset is strictly below `current`.  `fuel` bounds the iterations;
`numRestarts` always suffices. -/
def advLoop (cfg : BlockCfg) : Nat → Nat → Nat → Nat
  | 0, ri, _ => ri
  | fuel + 1, ri, current =>
    if ri + 1 < cfg.numRestarts ∧ GetRestartPoint cfg (ri + 1) < current then
      advLoop cfg fuel (ri + 1) current
    else ri

/-- The `restart_index_` advance of `ParseNextKey`, with adequate fuel. -/
def advanceRestartIndex (cfg : BlockCfg) (ri current : Nat) : Nat :=
  advLoop cfg cfg.numRestarts ri current

/-- `Block::Iter::ParseNextKey`: move `current_` past the current value,
decode the entry there, rebuild the key from the shared prefix, install the
value view, and advance the restart index.  Returns the success flag and
the new state. -/
def ParseNextKey (cfg : BlockCfg) (s : IterState) : Bool × IterState :=
  let current := NextEntryOffset cfg s
  if cfg.restarts ≤ current then
    (false, { s with current := cfg.restarts, restartIndex := cfg.numRestarts })
  else
    match DecodeEntry cfg.data current cfg.restarts with
    | none => (false, CorruptionError cfg)
    | some (sh, nsh, vl, p) =>
      if s.key.length < sh then (false, CorruptionError cfg)
      else
        (true,
          { current := current,
            restartIndex := advanceRestartIndex cfg s.restartIndex current,
            key := s.key.take sh ++ listSlice cfg.data p nsh,
            value := some (p + nsh, vl),
            status := s.status })

/-- `Block::Iter::Next`: one forward parse. -/
def Next (cfg : BlockCfg) (s : IterState) : IterState :=
  (ParseNextKey cfg s).2

/-- The generic do-while scan loop shared by `Prev`, `SeekToLast` and the
linear phase of `Seek`: parse an entry, and continue while the parse
succeeded and the stop condition is false. -/
def scanWhile (cfg : BlockCfg) (stop : IterState → Bool) : Nat → IterState → IterState
  | 0, s => s
  | fuel + 1, s =>
    let r := ParseNextKey cfg s
    if r.1 && !stop r.2 then scanWhile cfg stop fuel r.2 else r.2

/-- Fuel that bounds every entry-scanning loop of the iterator: a block
holds fewer than `restarts` entries (each entry header takes at least three
bytes). -/
def seekFuel (cfg : BlockCfg) : Nat := cfg.restarts + 1

/-- The backward restart-point search at the start of `Block::Iter::Prev`:
walk `restart_index_` down while the restart point's offset is at or past
the original offset; `none` means no predecessor exists. -/
def prevLoop (cfg : BlockCfg) (original : Nat) : Nat → Option Nat
  | 0 => if original ≤ GetRestartPoint cfg 0 then none else some 0
  | ri + 1 =>
    if original ≤ GetRestartPoint cfg (ri + 1) then prevLoop cfg original ri
    else some (ri + 1)

/-- `Block::Iter::Prev`: find the last restart point before the current
entry, reposition there, and parse forward until the next entry would reach
the original offset. -/
def Prev (cfg : BlockCfg) (s : IterState) : IterState :=
  let original := s.current
  match prevLoop cfg original s.restartIndex with
  | none => { s with current := cfg.restarts, restartIndex := cfg.numRestarts }
  | some ri =>
    scanWhile cfg (fun t => decide (original ≤ NextEntryOffset cfg t))
      (seekFuel cfg) (SeekToRestartPoint cfg ri s)

/-- The binary search over restart points in `Block::Iter::Seek`, looking
for the last restart point with key before the target.  `none` signals the
corruption exit (decode failure, or nonzero shared length at a restart
point).  `fuel` bounds the iterations; `right - left + 1` always
suffices since the interval shrinks every round. -/
def seekBinaryLoop (cfg : BlockCfg) (target : List Nat) :
    Nat → Nat → Nat → Option Nat
  | 0, left, _ => some left
  | fuel + 1, left, right =>
    if left < right then
      let mid := (left + right + 1) / 2
      match DecodeEntry cfg.data (GetRestartPoint cfg mid) cfg.restarts with
      | none => none
      | some (sh, nsh, _, kp) =>
        if sh ≠ 0 then none
        else if cfg.cmp (listSlice cfg.data kp nsh) target < 0 then
          seekBinaryLoop cfg target fuel mid right
        else seekBinaryLoop cfg target fuel left (mid - 1)
    else some left

/-- The restart-point binary search with its always-adequate fuel. -/
def seekBinary (cfg : BlockCfg) (target : List Nat) (left right : Nat) : Option Nat :=
  seekBinaryLoop cfg target (right - left + 1) left right

/-- The tail of `Block::Iter::Seek` after the search bounds are fixed:
binary search, optional reposition (skipped when the resolved restart index
equals the current one and the current key was below the target), then the
linear scan for the first key at or above the target. -/
def seekScan (cfg : BlockCfg) (target : List Nat) (left right : Nat)
    (currentKeyCompare : Int) (s : IterState) : IterState :=
  match seekBinary cfg target left right with
  | none => CorruptionError cfg
  | some l =>
    let s1 := if l = s.restartIndex ∧ currentKeyCompare < 0 then s
              else SeekToRestartPoint cfg l s
    scanWhile cfg (fun t => decide (0 ≤ cfg.cmp t.key target)) (seekFuel cfg) s1

/-- `Block::Iter::Seek`: narrow the restart range using the current
position when the iterator is valid (returning at once when the current key
already equals the target), then search and scan. -/
def Seek (cfg : BlockCfg) (target : List Nat) (s : IterState) : IterState :=
  if Valid cfg s then
    let c := cfg.cmp s.key target
    if c < 0 then seekScan cfg target s.restartIndex (cfg.numRestarts - 1) c s
    else if 0 < c then seekScan cfg target 0 s.restartIndex c s
    else s
  else seekScan cfg target 0 (cfg.numRestarts - 1) 0 s

/-- `Block::Iter::SeekToFirst`: reposition to restart point 0 and parse
once. -/
def SeekToFirst (cfg : BlockCfg) (s : IterState) : IterState :=
  (ParseNextKey cfg (SeekToRestartPoint cfg 0 s)).2

/-- `Block::Iter::SeekToLast`: reposition to the last restart point and
parse while the next entry still starts before the restart array. -/
def SeekToLast (cfg : BlockCfg) (s : IterState) : IterState :=
  scanWhile cfg (fun t => decide (cfg.restarts ≤ NextEntryOffset cfg t))
    (seekFuel cfg) (SeekToRestartPoint cfg (cfg.numRestarts - 1) s)

end Iter

/-- The state of a freshly constructed live iterator (`Block::Iter::Iter`):
`current_` at the restart array, `restart_index_` at the out-of-range
sentinel, default-constructed key and value, ok status. -/
def initState (cfg : BlockCfg) : IterState :=
  { current := cfg.restarts, restartIndex := cfg.numRestarts,
    key := [], value := none, status := .ok }

/-- The validated `Block` object: the raw bytes together with the stored
(possibly zeroed) size and the derived restart-array offset. -/
structure Block where
  data : List Nat
  size : Nat
  restartOffset : Nat

/-- `Block::NumRestarts`: trailing fixed32 of the buffer. -/
def Block.NumRestarts (b : Block) : Nat :=
  DecodeFixed32 b.data (b.size - 4)

/-- `Block::Block`: keep the buffer; zero the size when the buffer is
shorter than 4 bytes or the declared restart count cannot fit (the
`restartOffset` field is left 0 in those cases — the C++ leaves it
uninitialized and never reads it). -/
def Block.ofContents (data : List Nat) : Block :=
  if data.length < 4 then ⟨data, 0, 0⟩
  else
    let nr := DecodeFixed32 data (data.length - 4)
    if (data.length - 4) / 4 < nr then ⟨data, 0, 0⟩
    else ⟨data, data.length, data.length - (1 + nr) * 4⟩

/-- The three shapes of iterator `Block::NewIterator` can return: the
always-invalid error iterator, the always-empty iterator, or a live
iterator.  Modelled from the spec for the two degenerate variants
(`NewErrorIterator` / `NewEmptyIterator` live in `table/iterator.cc`, which
is not among the sources here): both are permanently invalid, the former
carries the supplied status and the latter is ok. -/
inductive BlockIterator where
  | err : Status → BlockIterator
  | empty : BlockIterator
  | live : BlockCfg → IterState → BlockIterator

/-- `Valid()` of a freshly returned iterator of any of the three shapes. -/
def BlockIterator.valid : BlockIterator → Bool
  | .err _ => false
  | .empty => false
  | .live cfg s => Iter.Valid cfg s

/-- `status()` of a freshly returned iterator of any of the three shapes. -/
def BlockIterator.status : BlockIterator → Status
  | .err st => st
  | .empty => .ok
  | .live _ s => s.status

/-- `Block::NewIterator`: error iterator for a structurally invalid block,
empty iterator when there are no restart points, live iterator otherwise. -/
def Block.NewIterator (b : Block) (cmp : List Nat → List Nat → Int) : BlockIterator :=
  if b.size < 4 then .err (.corruption "bad block contents")
  else
    let numRestarts := b.NumRestarts
    if numRestarts = 0 then .empty
    else
      let cfg : BlockCfg := ⟨b.data, b.restartOffset, numRestarts, cmp⟩
      .live cfg (initState cfg)

/-- The byte-wise comparator (the default key order: lexicographic on
bytes, a strict prefix ordering below its extensions). -/
def bytewiseCmp : List Nat → List Nat → Int
  | [], [] => 0
  | [], _ :: _ => -1
  | _ :: _, [] => 1
  | a :: as, b :: bs =>
    if a < b then -1 else if b < a then 1 else bytewiseCmp as bs

/-- The contract of an injected comparator: a total preorder presented as a
three-way `Int` comparison.  `flip` makes the comparison antisymmetric in
sign, `trans_le` makes the induced weak order transitive; everything else
the proofs need follows from these two. -/
structure CmpLaws (cmp : List Nat → List Nat → Int) : Prop where
  flip : ∀ a b, cmp a b < 0 ↔ 0 < cmp b a
  trans_le : ∀ a b c, cmp a b ≤ 0 → cmp b c ≤ 0 → cmp a c ≤ 0

/-- A logical block entry: its start offset, its reconstructed full key,
and the offset and length of its value bytes. -/
structure Entry where
  off : Nat
  key : List Nat
  voff : Nat
  vlen : Nat
deriving DecidableEq

instance : Inhabited Entry := ⟨⟨0, [], 0, 0⟩⟩

/-- Offset just past an entry's value — where the next entry starts. -/
def entryEnd (e : Entry) : Nat := e.voff + e.vlen

/-- Entry at position `j` of an entry list (`default` out of range). -/
def entAt (es : List Entry) (j : Nat) : Entry := es.getD j default

/-- `Chain d limit pos k es`: decoding entries forward from byte offset
`pos`, with `k` the key reconstructed so far, tiles the region `[pos,
limit)` exactly with the entries `es`, every shared prefix length in
bounds and no length arithmetic wrapping. -/
inductive Chain (d : List Nat) (limit : Nat) : Nat → List Nat → List Entry → Prop where
  | nil : ∀ pos k, limit ≤ pos → Chain d limit pos k []
  | cons : ∀ pos k sh nsh vl p tl,
      pos < limit →
      DecodeEntry d pos limit = some (sh, nsh, vl, p) →
      sh ≤ k.length →
      p + nsh + vl ≤ limit →
      Chain d limit (p + nsh + vl) (k.take sh ++ listSlice d p nsh) tl →
      Chain d limit pos k (⟨pos, k.take sh ++ listSlice d p nsh, p + nsh, vl⟩ :: tl)

/-- Executable check for `Chain`, used to certify concrete blocks. -/
def checkChain (d : List Nat) (limit : Nat) : List Entry → Nat → List Nat → Bool
  | [], pos, _ => decide (limit ≤ pos)
  | e :: tl, pos, k =>
    decide (pos < limit) &&
    (match DecodeEntry d pos limit with
     | none => false
     | some (sh, nsh, vl, p) =>
       decide (sh ≤ k.length) && decide (p + nsh + vl ≤ limit) &&
       decide (e = ⟨pos, k.take sh ++ listSlice d p nsh, p + nsh, vl⟩) &&
       checkChain d limit tl (p + nsh + vl) (k.take sh ++ listSlice d p nsh))

/-- A well-formed block with entry list `es`, as produced by the block
builder: consistent geometry, a complete prefix-compression chain over the
entry region, strictly ascending keys, and a restart array whose offsets
start at 0, increase strictly, and land on entries that store their full
key (zero shared length). -/
structure WFBlock (cfg : BlockCfg) (es : List Entry) : Prop where
  laws : CmpLaws cfg.cmp
  size32 : cfg.data.length < 2 ^ 32
  geom : cfg.restarts + 4 * cfg.numRestarts + 4 = cfg.data.length
  numPos : 0 < cfg.numRestarts
  chain : Chain cfg.data cfg.restarts 0 [] es
  ne : es ≠ []
  sorted : es.Pairwise (fun a b => cfg.cmp a.key b.key < 0)
  restartZero : Iter.GetRestartPoint cfg 0 = 0
  restartMono : ∀ i j, i < j → j < cfg.numRestarts →
    Iter.GetRestartPoint cfg i < Iter.GetRestartPoint cfg j
  restartMap : ∀ i, i < cfg.numRestarts → ∃ e ∈ es, e.off = Iter.GetRestartPoint cfg i
  restartShared : ∀ i, i < cfg.numRestarts →
    ∃ nsh vl p,
      DecodeEntry cfg.data (Iter.GetRestartPoint cfg i) cfg.restarts = some (0, nsh, vl, p)

/-- The iterator state parked on a given entry with a given restart-region
index and status. -/
def entryState (e : Entry) (ri : Nat) (st : Status) : IterState :=
  { current := e.off, restartIndex := ri, key := e.key,
    value := some (e.voff, e.vlen), status := st }

/-- The state after a forward scan falls off the end of the entries: parked
at the restart array with the last entry's key and value left in place. -/
def exhaustState (cfg : BlockCfg) (es : List Entry) (st : Status) : IterState :=
  { current := cfg.restarts, restartIndex := cfg.numRestarts,
    key := (entAt es (es.length - 1)).key,
    value := some ((entAt es (es.length - 1)).voff, (entAt es (es.length - 1)).vlen),
    status := st }

/-- The code's restart-region placement invariant for a cursor on entry
`j`: the region's restart point starts at or before the entry and the next
one (if any) starts at or after it. -/
def RIgood (cfg : BlockCfg) (es : List Entry) (ri j : Nat) : Prop :=
  ri < cfg.numRestarts ∧ Iter.GetRestartPoint cfg ri ≤ (entAt es j).off ∧
    (ri + 1 < cfg.numRestarts → (entAt es j).off ≤ Iter.GetRestartPoint cfg (ri + 1))

/-- The canonical restart-region index for a cursor at byte offset `x`: the
largest restart index whose offset is strictly below `x` (0 when none is). -/
def cri (cfg : BlockCfg) (x : Nat) : Nat :=
  Nat.findGreatest (fun i => Iter.GetRestartPoint cfg i < x) (cfg.numRestarts - 1)

/-- A state a live iterator can legitimately be in: either invalid and
parked at the restart array with the sentinel restart index, or on one of
the block's entries with a restart-region index the code maintains. -/
def GoodState (cfg : BlockCfg) (es : List Entry) (s : IterState) : Prop :=
  (s.current = cfg.restarts ∧ s.restartIndex = cfg.numRestarts) ∨
    (∃ j, j < es.length ∧ RIgood cfg es s.restartIndex j ∧
      s = entryState (entAt es j) s.restartIndex s.status)

/-- First position `≥ m` in `es` whose entry satisfies `p` (fueled
helper). -/
def findFromF (es : List Entry) (p : Entry → Bool) : Nat → Nat → Option Nat
  | 0, _ => none
  | fuel + 1, m =>
    if m < es.length then
      (if p (entAt es m) then some m else findFromF es p fuel (m + 1))
    else none

/-- First position `≥ m` in `es` whose entry satisfies `p`. -/
def findFrom (es : List Entry) (p : Entry → Bool) (m : Nat) : Option Nat :=
  findFromF es p (es.length - m) m

/-- Position of the first entry whose key is at or above `target` — the
lower-bound position `Seek` is specified to land on. -/
def lowerBoundIdx (cfg : BlockCfg) (es : List Entry) (target : List Nat) : Option Nat :=
  findFrom es (fun e => decide (0 ≤ cfg.cmp e.key target)) 0

/-- Keys observed by repeated `Next` calls from a state while the iterator
stays valid. -/
def collectNext (cfg : BlockCfg) : Nat → IterState → List (List Nat)
  | 0, _ => []
  | fuel + 1, s =>
    if Iter.Valid cfg s then s.key :: collectNext cfg fuel (Iter.Next cfg s) else []

/-- Keys observed by repeated `Prev` calls from a state while the iterator
stays valid. -/
def collectPrev (cfg : BlockCfg) : Nat → IterState → List (List Nat)
  | 0, _ => []
  | fuel + 1, s =>
    if Iter.Valid cfg s then s.key :: collectPrev cfg fuel (Iter.Prev cfg s) else []

/-- The key sequence of a full forward traversal: `SeekToFirst`, then
`Next` until invalid. -/
def forwardKeys (cfg : BlockCfg) : List (List Nat) :=
  collectNext cfg (Iter.seekFuel cfg) (Iter.SeekToFirst cfg (initState cfg))

/-- The key sequence of a full backward traversal: `SeekToLast`, then
`Prev` until invalid. -/
def backwardKeys (cfg : BlockCfg) : List (List Nat) :=
  collectPrev cfg (Iter.seekFuel cfg) (Iter.SeekToLast cfg (initState cfg))

/-- Concrete block holding ("a","1"), ("ab","2"), ("b","3") with restart
points at the first and third entry — the spec's worked scenario. -/
def dataEx : List Nat :=
  [0, 1, 1, 97, 49] ++ [1, 1, 1, 98, 50] ++ [0, 1, 1, 98, 51] ++
    [0, 0, 0, 0] ++ [10, 0, 0, 0] ++ [2, 0, 0, 0]

/-- Live-iterator configuration over `dataEx`. -/
def cfgEx : BlockCfg := ⟨dataEx, 15, 2, bytewiseCmp⟩

/-- The entry list of `dataEx`. -/
def esEx : List Entry := [⟨0, [97], 4, 1⟩, ⟨5, [97, 98], 9, 1⟩, ⟨10, [98], 14, 1⟩]

/-- Block whose single entry declares `non_shared = 2^32 - 1` and
`value_len = 1` through varint headers: the `uint32_t` sum in
`DecodeEntry`'s guard wraps to 0 and the guard passes. -/
def dataOv : List Nat :=
  [0, 255, 255, 255, 255, 15, 1, 97] ++ [0, 0, 0, 0] ++ [1, 0, 0, 0]

/-- Live-iterator configuration over `dataOv`. -/
def cfgOv : BlockCfg := ⟨dataOv, 8, 1, bytewiseCmp⟩

/-- Block with two entries, each its own restart point: the second entry
starts exactly at restart point 1's offset. -/
def dataC7 : List Nat :=
  [0, 1, 1, 97, 49] ++ [0, 1, 1, 98, 50] ++ [0, 0, 0, 0] ++ [5, 0, 0, 0] ++ [2, 0, 0, 0]

/-- Live-iterator configuration over `dataC7`. -/
def cfgC7 : BlockCfg := ⟨dataC7, 10, 2, bytewiseCmp⟩

/-- Minimal one-entry block (key "a", value "1"). -/
def dataC8 : List Nat := [0, 1, 1, 97, 49] ++ [0, 0, 0, 0] ++ [1, 0, 0, 0]

/-- Live-iterator configuration over `dataC8`. -/
def cfgC8 : BlockCfg := ⟨dataC8, 5, 1, bytewiseCmp⟩

/-- The entry list of `dataC8`. -/
def esC8 : List Entry := [⟨0, [97], 4, 1⟩]

/-- Block whose entry region is too short to decode (two bytes before the
restart array): the first parse hits the corruption path. -/
def dataBad : List Nat := [255, 255] ++ [0, 0, 0, 0] ++ [1, 0, 0, 0]

/-- Live-iterator configuration over `dataBad`. -/
def cfgBad : BlockCfg := ⟨dataBad, 2, 1, bytewiseCmp⟩

/-- Block whose restart array points at an entry with nonzero shared
length (restart point 1 claims offset 5, where the entry has `shared = 1`):
`Seek`'s binary search must report corruption. -/
def dataShared : List Nat :=
  [0, 1, 1, 97, 49] ++ [1, 1, 1, 98, 50] ++
    [0, 0, 0, 0] ++ [5, 0, 0, 0] ++ [2, 0, 0, 0]

/-- Live-iterator configuration over `dataShared`. -/
def cfgShared : BlockCfg := ⟨dataShared, 10, 2, bytewiseCmp⟩

/-- The key available to reconstruct entry `j` of a chain started with key
`k`: the chain's seed for the first entry, the previous entry's key after
that. -/
def prevKeyOf (k : List Nat) (es : List Entry) (j : Nat) : List Nat :=
  if j = 0 then k else (entAt es (j - 1)).key

/-- Restart point `i`'s entry has a key strictly below `target`. -/
def restartKeyLt (cfg : BlockCfg) (es : List Entry) (target : List Nat) (i : Nat) : Prop :=
  ∃ m, m < es.length ∧ (entAt es m).off = Iter.GetRestartPoint cfg i ∧
    cfg.cmp (entAt es m).key target < 0

/-- The state `Seek(target)` is specified to end in (when it does not
return early): parked on the lower-bound entry with the canonical region
index, or exhausted when every key is below the target. -/
def seekResult (cfg : BlockCfg) (es : List Entry) (target : List Nat) (st : Status) : IterState :=
  match lowerBoundIdx cfg es target with
  | some q => entryState (entAt es q) (cri cfg (entAt es q).off) st
  | none => exhaustState cfg es st

/-! ### Comparator laws -/

namespace CmpLaws

variable {cmp : List Nat → List Nat → Int}

theorem eq_flip (h : CmpLaws cmp) {a b : List Nat} (hab : cmp a b = 0) :
    cmp b a = 0 := by
  have h1 : ¬ cmp b a < 0 := fun hlt => by
    have := (h.flip b a).mp hlt; omega
  have h2 : ¬ 0 < cmp b a := fun hgt => by
    have := (h.flip a b).mpr hgt; omega
  omega

theorem lt_of_le_of_lt (h : CmpLaws cmp) {a b c : List Nat}
    (hab : cmp a b ≤ 0) (hbc : cmp b c < 0) : cmp a c < 0 := by
  have h1 : cmp a c ≤ 0 := h.trans_le a b c hab (le_of_lt hbc)
  by_contra hnc
  have hac : cmp a c = 0 := by omega
  have hca : cmp c a = 0 := h.eq_flip hac
  have h2 : cmp c b ≤ 0 := h.trans_le c a b (by omega) hab
  have h3 : 0 < cmp c b := (h.flip b c).mp hbc
  omega

theorem lt_of_lt_of_le (h : CmpLaws cmp) {a b c : List Nat}
    (hab : cmp a b < 0) (hbc : cmp b c ≤ 0) : cmp a c < 0 := by
  have h1 : cmp a c ≤ 0 := h.trans_le a b c (le_of_lt hab) hbc
  by_contra hnc
  have hac : cmp a c = 0 := by omega
  have hca : cmp c a = 0 := h.eq_flip hac
  have h2 : cmp b a ≤ 0 := h.trans_le b c a hbc (by omega)
  have h3 : 0 < cmp b a := (h.flip a b).mp hab
  omega

theorem lt_trans (h : CmpLaws cmp) {a b c : List Nat}
    (hab : cmp a b < 0) (hbc : cmp b c < 0) : cmp a c < 0 :=
  h.lt_of_le_of_lt (le_of_lt hab) hbc

theorem refl_le (h : CmpLaws cmp) (a : List Nat) : cmp a a ≤ 0 := by
  by_contra hgt
  have h1 : 0 < cmp a a := by omega
  have := (h.flip a a).mpr h1
  omega

end CmpLaws

/-- The byte-wise comparator satisfies the comparator contract. -/
theorem bytewiseCmp_laws : CmpLaws bytewiseCmp := by
  constructor
  · intro a
    induction a with
    | nil => intro b; cases b <;> simp [bytewiseCmp]
    | cons x xs ih =>
      intro b
      cases b with
      | nil => simp [bytewiseCmp]
      | cons y ys =>
        by_cases hxy : x < y
        · have hyx : ¬ y < x := by omega
          simp [bytewiseCmp, hxy, hyx]
        · by_cases hyx : y < x
          · simp [bytewiseCmp, hxy, hyx]
          · simp [bytewiseCmp, hxy, hyx]; exact ih ys
  · intro a
    induction a with
    | nil =>
      intro b c _ _
      cases c <;> simp [bytewiseCmp]
    | cons x xs ih =>
      intro b c h1 h2
      cases b with
      | nil => simp [bytewiseCmp] at h1
      | cons y ys =>
        cases c with
        | nil => simp [bytewiseCmp] at h2
        | cons z zs =>
          by_cases hxy : x < y
          · by_cases hyz : y < z
            · have : x < z := by omega
              simp [bytewiseCmp, this]
            · have hzy : ¬ z < y := by
                intro hzy
                simp [bytewiseCmp, hyz, hzy] at h2
              have hyz' : y = z := by omega
              have : x < z := by omega
              simp [bytewiseCmp, this]
          · by_cases hyx : y < x
            · simp [bytewiseCmp, hxy, hyx] at h1
            · have hxy' : x = y := by omega
              subst hxy'
              simp only [bytewiseCmp, hxy, if_neg (lt_irrefl x)] at h1
              by_cases hyz : x < z
              · simp [bytewiseCmp, hyz]
              · by_cases hzy : z < x
                · simp [bytewiseCmp, hyz, hzy] at h2
                · simp only [bytewiseCmp, if_neg hyz, if_neg hzy] at h2 ⊢
                  exact ih ys zs h1 h2

/-! ### Chain certification and structure -/

/-- A successful `checkChain` certifies a `Chain`. -/
theorem checkChain_sound (d : List Nat) (limit : Nat) :
    ∀ es pos k, checkChain d limit es pos k = true → Chain d limit pos k es := by
  intro es
  induction es with
  | nil =>
    intro pos k h
    simp only [checkChain, decide_eq_true_eq] at h
    exact Chain.nil pos k h
  | cons e tl ih =>
    intro pos k h
    simp only [checkChain, Bool.and_eq_true, decide_eq_true_eq] at h
    obtain ⟨hpos, h2⟩ := h
    cases hde : DecodeEntry d pos limit with
    | none => rw [hde] at h2; simp at h2
    | some r =>
      obtain ⟨sh, nsh, vl, p⟩ := r
      rw [hde] at h2
      simp only [Bool.and_eq_true, decide_eq_true_eq] at h2
      obtain ⟨⟨⟨hsh, hbound⟩, he⟩, hrec⟩ := h2
      subst he
      exact Chain.cons pos k sh nsh vl p tl hpos hde hsh hbound (ih _ _ hrec)

/-- A successful varint decode moves the position strictly forward. -/
theorem getVarint32Loop_pos (d : List Nat) (limit : Nat) :
    ∀ steps p shift acc v q,
      getVarint32Loop d limit steps p shift acc = some (v, q) → p < q := by
  intro steps
  induction steps with
  | zero => intro p shift acc v q h; simp [getVarint32Loop] at h
  | succ n ih =>
    intro p shift acc v q h
    simp only [getVarint32Loop] at h
    by_cases hp : p < limit
    · rw [if_pos hp] at h
      by_cases hb : byteAt d p < 128
      · rw [if_pos hb] at h
        simp only [Option.some.injEq, Prod.mk.injEq] at h
        omega
      · rw [if_neg hb] at h
        have := ih _ _ _ _ _ h
        omega
    · rw [if_neg hp] at h; cases h

/-- A successful varint decode stays within the limit. -/
theorem getVarint32Loop_le (d : List Nat) (limit : Nat) :
    ∀ steps p shift acc v q,
      getVarint32Loop d limit steps p shift acc = some (v, q) → q ≤ limit := by
  intro steps
  induction steps with
  | zero => intro p shift acc v q h; simp [getVarint32Loop] at h
  | succ n ih =>
    intro p shift acc v q h
    simp only [getVarint32Loop] at h
    by_cases hp : p < limit
    · rw [if_pos hp] at h
      by_cases hb : byteAt d p < 128
      · rw [if_pos hb] at h
        simp only [Option.some.injEq, Prod.mk.injEq] at h
        omega
      · rw [if_neg hb] at h
        exact ih _ _ _ _ _ h
    · rw [if_neg hp] at h; cases h

/-- A successful entry decode places the key suffix at least three bytes
past the entry start. -/
theorem DecodeEntry_pos (d : List Nat) (p limit sh nsh vl q : Nat)
    (h : DecodeEntry d p limit = some (sh, nsh, vl, q)) : p + 3 ≤ q ∧ q ≤ limit := by
  simp only [DecodeEntry] at h
  by_cases h3 : limit - p < 3
  · simp only [if_pos h3] at h
    exact Option.noConfusion h
  · simp only [if_neg h3] at h
    by_cases hfast : byteAt d p ||| byteAt d (p + 1) ||| byteAt d (p + 2) < 128
    · simp only [if_pos hfast] at h
      by_cases hbound :
          (limit - (p + 3)) % 2 ^ 32 < (byteAt d (p + 1) + byteAt d (p + 2)) % 2 ^ 32
      · simp only [if_pos hbound] at h
        exact Option.noConfusion h
      · simp only [if_neg hbound, Option.some.injEq, Prod.mk.injEq] at h
        omega
    · simp only [if_neg hfast] at h
      cases h1 : GetVarint32 d p limit with
      | none => simp only [h1] at h; exact Option.noConfusion h
      | some r1 =>
        obtain ⟨v1, p1⟩ := r1
        simp only [h1] at h
        cases h2 : GetVarint32 d p1 limit with
        | none => simp only [h2] at h; exact Option.noConfusion h
        | some r2 =>
          obtain ⟨v2, p2⟩ := r2
          simp only [h2] at h
          cases h3' : GetVarint32 d p2 limit with
          | none => simp only [h3'] at h; exact Option.noConfusion h
          | some r3 =>
            obtain ⟨v3, p3⟩ := r3
            simp only [h3'] at h
            by_cases hbound : (limit - p3) % 2 ^ 32 < (v2 + v3) % 2 ^ 32
            · simp only [if_pos hbound] at h
              exact Option.noConfusion h
            · simp only [if_neg hbound, Option.some.injEq, Prod.mk.injEq] at h
              obtain ⟨_, _, _, hq⟩ := h
              subst hq
              have e1 := getVarint32Loop_pos d limit 5 p 0 0 v1 p1 h1
              have e2 := getVarint32Loop_pos d limit 5 p1 0 0 v2 p2 h2
              have e3 := getVarint32Loop_pos d limit 5 p2 0 0 v3 p3 h3'
              have e4 := getVarint32Loop_le d limit 5 p2 0 0 v3 p3 h3'
              omega

/-- `entAt` distributes over cons at successor positions. -/
theorem entAt_cons_succ (e : Entry) (tl : List Entry) (j : Nat) :
    entAt (e :: tl) (j + 1) = entAt tl j := rfl

/-- `entAt` at the head. -/
theorem entAt_cons_zero (e : Entry) (tl : List Entry) : entAt (e :: tl) 0 = e := rfl

/-- `prevKeyOf` distributes over cons. -/
theorem prevKeyOf_cons_succ (k : List Nat) (e : Entry) (tl : List Entry) (j : Nat) :
    prevKeyOf k (e :: tl) (j + 1) = prevKeyOf e.key tl j := by
  cases j with
  | zero => simp [prevKeyOf, entAt]
  | succ j' => simp [prevKeyOf, entAt]

/-- The head of a chain starts at the chain's start position. -/
theorem chain_head {d : List Nat} {limit pos : Nat} {k : List Nat}
    {e : Entry} {tl : List Entry} (h : Chain d limit pos k (e :: tl)) : e.off = pos := by
  cases h; rfl

/-- The structural facts about entry `j` of a chain: its decode, its key
reconstruction from the previous key, its value placement, its bounds, and
its adjacency with the following entry or the region end. -/
theorem chain_main {d : List Nat} {limit : Nat} :
    ∀ {pos : Nat} {k : List Nat} {es : List Entry}, Chain d limit pos k es →
      ∀ j, j < es.length →
        ∃ sh nsh vl p,
          DecodeEntry d (entAt es j).off limit = some (sh, nsh, vl, p) ∧
          sh ≤ (prevKeyOf k es j).length ∧
          (entAt es j).key = (prevKeyOf k es j).take sh ++ listSlice d p nsh ∧
          (entAt es j).voff = p + nsh ∧ (entAt es j).vlen = vl ∧
          (entAt es j).off < limit ∧ entryEnd (entAt es j) ≤ limit ∧
          entryEnd (entAt es j) =
            (if j + 1 < es.length then (entAt es (j + 1)).off else limit) := by
  intro pos k es h
  induction h with
  | nil pos k hle => intro j hj; simp at hj
  | cons pos k sh nsh vl p tl hpos hde hsh hb hch ih =>
    intro j hj
    cases j with
    | zero =>
      refine ⟨sh, nsh, vl, p, hde, hsh, rfl, rfl, rfl, hpos, hb, ?_⟩
      cases tl with
      | nil =>
        simp only [entAt_cons_zero, List.length_cons, List.length_nil]
        rw [if_neg (by omega)]
        cases hch with
        | nil _ _ hle =>
          show p + nsh + vl = limit
          omega
      | cons f tl2 =>
        have hf : f.off = p + nsh + vl := chain_head hch
        simp only [entAt_cons_zero, List.length_cons]
        rw [if_pos (by omega)]
        rw [entAt_cons_succ, entAt_cons_zero]
        show p + nsh + vl = f.off
        omega
    | succ j' =>
      have hj' : j' < tl.length := by simpa using hj
      obtain ⟨sh', nsh', vl', p', ih1, ih2, ih3, ih4, ih5, ih6, ih7, ih8⟩ := ih j' hj'
      refine ⟨sh', nsh', vl', p', ?_, ?_, ?_, ?_, ?_, ?_, ?_, ?_⟩
      · rw [entAt_cons_succ]; exact ih1
      · rw [prevKeyOf_cons_succ]; exact ih2
      · rw [entAt_cons_succ, prevKeyOf_cons_succ]; exact ih3
      · rw [entAt_cons_succ]; exact ih4
      · rw [entAt_cons_succ]; exact ih5
      · rw [entAt_cons_succ]; exact ih6
      · rw [entAt_cons_succ]; exact ih7
      · rw [entAt_cons_succ, ih8]
        by_cases hlt : j' + 1 < tl.length
        · rw [if_pos hlt, if_pos (by simpa using Nat.succ_lt_succ hlt)]
          rw [entAt_cons_succ]
        · rw [if_neg hlt, if_neg (by simp; omega)]

/-- The first entry of a nonempty chain starts at the chain's start. -/
theorem chain_off_head {d : List Nat} {limit pos : Nat} {k : List Nat}
    {es : List Entry} (h : Chain d limit pos k es) (hne : es ≠ []) :
    (entAt es 0).off = pos := by
  cases es with
  | nil => exact absurd rfl hne
  | cons e tl => rw [entAt_cons_zero]; exact chain_head h

/-- Adjacent entries of a chain tile the region. -/
theorem chain_adj {d : List Nat} {limit pos : Nat} {k : List Nat}
    {es : List Entry} (h : Chain d limit pos k es) {j : Nat} (hj : j + 1 < es.length) :
    (entAt es (j + 1)).off = entryEnd (entAt es j) := by
  obtain ⟨_, _, _, _, _, _, _, _, _, _, _, hend⟩ := chain_main h j (by omega)
  rw [hend, if_pos hj]

/-- The last entry of a nonempty chain ends exactly at the region end. -/
theorem chain_last_end {d : List Nat} {limit pos : Nat} {k : List Nat}
    {es : List Entry} (h : Chain d limit pos k es) (hne : es ≠ []) :
    entryEnd (entAt es (es.length - 1)) = limit := by
  have hlen : 0 < es.length := List.length_pos.mpr hne
  obtain ⟨_, _, _, _, _, _, _, _, _, _, _, hend⟩ := chain_main h (es.length - 1) (by omega)
  rw [hend, if_neg (by omega)]

/-- Consecutive entries advance by at least the three header bytes. -/
theorem chain_off_step {d : List Nat} {limit pos : Nat} {k : List Nat}
    {es : List Entry} (h : Chain d limit pos k es) {j : Nat} (hj : j + 1 < es.length) :
    (entAt es j).off + 3 ≤ (entAt es (j + 1)).off := by
  obtain ⟨sh, nsh, vl, p, hde, _, _, hvoff, hvlen, _, _, hend⟩ := chain_main h j (by omega)
  have hp := DecodeEntry_pos d (entAt es j).off limit sh nsh vl p hde
  have : (entAt es (j + 1)).off = entryEnd (entAt es j) := chain_adj h hj
  unfold entryEnd at this
  omega

/-- Entry offsets are strictly increasing along a chain. -/
theorem chain_off_mono {d : List Nat} {limit pos : Nat} {k : List Nat}
    {es : List Entry} (h : Chain d limit pos k es) :
    ∀ i j, i < j → j < es.length → (entAt es i).off < (entAt es j).off := by
  intro i j
  induction j with
  | zero => intro hij _; omega
  | succ j' ih =>
    intro hij hj
    rcases Nat.lt_succ_iff_lt_or_eq.mp hij with hlt | heq
    · have h1 := ih hlt (by omega)
      have h2 := chain_off_step h hj
      omega
    · subst heq
      have h2 := chain_off_step h hj
      omega

/-- Every entry lies strictly inside the region and ends inside it. -/
theorem chain_bounds {d : List Nat} {limit pos : Nat} {k : List Nat}
    {es : List Entry} (h : Chain d limit pos k es) {j : Nat} (hj : j < es.length) :
    (entAt es j).off < limit ∧ entryEnd (entAt es j) ≤ limit := by
  obtain ⟨_, _, _, _, _, _, _, _, _, h1, h2, _⟩ := chain_main h j hj
  exact ⟨h1, h2⟩

/-- A chain over `[pos, limit)` holds at most `(limit - pos) / 3` entries. -/
theorem chain_length_bound {d : List Nat} {limit : Nat} :
    ∀ {pos : Nat} {k : List Nat} {es : List Entry}, Chain d limit pos k es →
      3 * es.length ≤ limit - pos := by
  intro pos k es h
  induction h with
  | nil pos k hle => simp
  | cons pos k sh nsh vl p tl hpos hde hsh hb hch ih =>
    have hp := DecodeEntry_pos d pos limit sh nsh vl p hde
    simp only [List.length_cons]
    omega

/-- The start position of a chain does not exceed any entry's offset. -/
theorem chain_pos_le {d : List Nat} {limit pos : Nat} {k : List Nat}
    {es : List Entry} (h : Chain d limit pos k es) {j : Nat} (hj : j < es.length) :
    pos ≤ (entAt es j).off := by
  have h0 : (entAt es 0).off = pos :=
    chain_off_head h (by intro he; rw [he] at hj; simp at hj)
  cases j with
  | zero => omega
  | succ j' =>
    have := chain_off_mono h 0 (j' + 1) (by omega) hj
    omega

/-! ### ParseNextKey and loop shape lemmas -/

/-- Every `ParseNextKey` call either fails parked at the restart array with
the sentinel restart index (keeping the status or recording the corruption
status), or succeeds on an offset before the restart array keeping the
status. -/
theorem ParseNextKey_cases (cfg : BlockCfg) (s : IterState) :
    ((Iter.ParseNextKey cfg s).1 = false ∧
      (Iter.ParseNextKey cfg s).2.current = cfg.restarts ∧
      (Iter.ParseNextKey cfg s).2.restartIndex = cfg.numRestarts ∧
      ((Iter.ParseNextKey cfg s).2.status = s.status ∨
        (Iter.ParseNextKey cfg s).2.status = Status.corruption "bad entry in block")) ∨
    ((Iter.ParseNextKey cfg s).1 = true ∧
      (Iter.ParseNextKey cfg s).2.current < cfg.restarts ∧
      (Iter.ParseNextKey cfg s).2.status = s.status) := by
  simp only [Iter.ParseNextKey]
  by_cases h1 : cfg.restarts ≤ Iter.NextEntryOffset cfg s
  · left; simp [h1]
  · simp only [if_neg h1]
    cases hde : DecodeEntry cfg.data (Iter.NextEntryOffset cfg s) cfg.restarts with
    | none => left; simp [Iter.CorruptionError]
    | some r =>
      obtain ⟨sh, nsh, vl, p⟩ := r
      by_cases h3 : s.key.length < sh
      · left; simp [h3, Iter.CorruptionError]
      · right; simp [h3]; omega

/-- A `scanWhile` run with positive fuel ends as the output of some
`ParseNextKey` call on a state whose status is the initial one or the
corruption status. -/
theorem scanWhile_shape (cfg : BlockCfg) (stop : IterState → Bool) :
    ∀ fuel s, ∃ u, Iter.scanWhile cfg stop (fuel + 1) s = (Iter.ParseNextKey cfg u).2 ∧
      (u.status = s.status ∨ u.status = Status.corruption "bad entry in block") := by
  intro fuel
  induction fuel with
  | zero =>
    intro s
    refine ⟨s, ?_, Or.inl rfl⟩
    simp [Iter.scanWhile]
  | succ f ih =>
    intro s
    simp only [Iter.scanWhile]
    by_cases hc : (Iter.ParseNextKey cfg s).1 && !stop (Iter.ParseNextKey cfg s).2
    · rw [if_pos hc]
      obtain ⟨u, hu, hstat⟩ := ih (Iter.ParseNextKey cfg s).2
      refine ⟨u, hu, ?_⟩
      rcases ParseNextKey_cases cfg s with ⟨_, _, _, hs⟩ | ⟨_, _, hs⟩ <;>
        rcases hstat with h | h <;> rw [h] <;> simp [hs]
    · rw [if_neg hc]
      exact ⟨s, rfl, Or.inl rfl⟩

/-- The status of a `ParseNextKey` output: unchanged or the corruption
status. -/
theorem ParseNextKey_status (cfg : BlockCfg) (s : IterState) :
    (Iter.ParseNextKey cfg s).2.status = s.status ∨
      (Iter.ParseNextKey cfg s).2.status = Status.corruption "bad entry in block" := by
  rcases ParseNextKey_cases cfg s with ⟨_, _, _, hs⟩ | ⟨_, _, hs⟩
  · exact hs
  · exact Or.inl hs

/-- The invalidity invariant of a `ParseNextKey` output: if it is not
valid, its restart index is the sentinel. -/
theorem ParseNextKey_inv (cfg : BlockCfg) (s : IterState) :
    cfg.restarts ≤ (Iter.ParseNextKey cfg s).2.current →
      (Iter.ParseNextKey cfg s).2.restartIndex = cfg.numRestarts := by
  intro hc
  rcases ParseNextKey_cases cfg s with ⟨_, _, hri, _⟩ | ⟨_, hcur, _⟩
  · exact hri
  · omega

/-- Post-state of the search-and-scan tail of `Seek`: status preserved or
corruption, and the invalid-state restart-index invariant. -/
theorem seekScan_post (cfg : BlockCfg) (target : List Nat) (left right : Nat)
    (ckc : Int) (s : IterState) :
    ((Iter.seekScan cfg target left right ckc s).status = s.status ∨
      (Iter.seekScan cfg target left right ckc s).status =
        Status.corruption "bad entry in block") ∧
    (cfg.restarts ≤ (Iter.seekScan cfg target left right ckc s).current →
      (Iter.seekScan cfg target left right ckc s).restartIndex = cfg.numRestarts) := by
  unfold Iter.seekScan
  cases hb : Iter.seekBinary cfg target left right with
  | none => simp [Iter.CorruptionError]
  | some l =>
    simp only []
    have hstat1 :
        (if l = s.restartIndex ∧ ckc < 0 then s else Iter.SeekToRestartPoint cfg l s).status
          = s.status := by
      split <;> rfl
    obtain ⟨u, hu, hustat⟩ :=
      scanWhile_shape cfg (fun t => decide (0 ≤ cfg.cmp t.key target)) cfg.restarts
        (if l = s.restartIndex ∧ ckc < 0 then s else Iter.SeekToRestartPoint cfg l s)
    rw [show Iter.seekFuel cfg = cfg.restarts + 1 from rfl, hu]
    constructor
    · rcases ParseNextKey_status cfg u with h | h
      · rw [h]; rw [hstat1] at hustat; exact hustat
      · exact Or.inr h
    · exact ParseNextKey_inv cfg u

/-- Post-state of `Seek`: status preserved or corruption, and the
invalid-state restart-index invariant. -/
theorem Seek_post (cfg : BlockCfg) (target : List Nat) (s : IterState) :
    ((Iter.Seek cfg target s).status = s.status ∨
      (Iter.Seek cfg target s).status = Status.corruption "bad entry in block") ∧
    (cfg.restarts ≤ (Iter.Seek cfg target s).current →
      (Iter.Seek cfg target s).restartIndex = cfg.numRestarts) := by
  unfold Iter.Seek
  by_cases hv : Iter.Valid cfg s
  · rw [if_pos hv]
    have hcur : s.current < cfg.restarts := by
      simpa [Iter.Valid] using hv
    by_cases hc1 : cfg.cmp s.key target < 0
    · simp only [if_pos hc1]
      exact seekScan_post cfg target s.restartIndex (cfg.numRestarts - 1) _ s
    · rw [if_neg hc1]
      by_cases hc2 : 0 < cfg.cmp s.key target
      · rw [if_pos hc2]
        exact seekScan_post cfg target 0 s.restartIndex _ s
      · rw [if_neg hc2]
        exact ⟨Or.inl rfl, fun h => absurd h (by omega)⟩
  · rw [if_neg hv]
    exact seekScan_post cfg target 0 (cfg.numRestarts - 1) 0 s

/-- Post-state of `Next`. -/
theorem Next_post (cfg : BlockCfg) (s : IterState) :
    ((Iter.Next cfg s).status = s.status ∨
      (Iter.Next cfg s).status = Status.corruption "bad entry in block") ∧
    (cfg.restarts ≤ (Iter.Next cfg s).current →
      (Iter.Next cfg s).restartIndex = cfg.numRestarts) :=
  ⟨ParseNextKey_status cfg s, ParseNextKey_inv cfg s⟩

/-- Post-state of `Prev`. -/
theorem Prev_post (cfg : BlockCfg) (s : IterState) :
    ((Iter.Prev cfg s).status = s.status ∨
      (Iter.Prev cfg s).status = Status.corruption "bad entry in block") ∧
    (cfg.restarts ≤ (Iter.Prev cfg s).current →
      (Iter.Prev cfg s).restartIndex = cfg.numRestarts) := by
  simp only [Iter.Prev]
  cases hp : Iter.prevLoop cfg s.current s.restartIndex with
  | none => simp [hp]
  | some ri =>
    simp only [hp]
    obtain ⟨u, hu, hustat⟩ :=
      scanWhile_shape cfg (fun t => decide (s.current ≤ Iter.NextEntryOffset cfg t))
        cfg.restarts (Iter.SeekToRestartPoint cfg ri s)
    rw [show Iter.seekFuel cfg = cfg.restarts + 1 from rfl, hu]
    constructor
    · rcases ParseNextKey_status cfg u with h | h
      · rw [h]; exact hustat
      · exact Or.inr h
    · exact ParseNextKey_inv cfg u

/-- Post-state of `SeekToFirst`. -/
theorem SeekToFirst_post (cfg : BlockCfg) (s : IterState) :
    ((Iter.SeekToFirst cfg s).status = s.status ∨
      (Iter.SeekToFirst cfg s).status = Status.corruption "bad entry in block") ∧
    (cfg.restarts ≤ (Iter.SeekToFirst cfg s).current →
      (Iter.SeekToFirst cfg s).restartIndex = cfg.numRestarts) :=
  ⟨ParseNextKey_status cfg (Iter.SeekToRestartPoint cfg 0 s),
   ParseNextKey_inv cfg (Iter.SeekToRestartPoint cfg 0 s)⟩

/-- Post-state of `SeekToLast`. -/
theorem SeekToLast_post (cfg : BlockCfg) (s : IterState) :
    ((Iter.SeekToLast cfg s).status = s.status ∨
      (Iter.SeekToLast cfg s).status = Status.corruption "bad entry in block") ∧
    (cfg.restarts ≤ (Iter.SeekToLast cfg s).current →
      (Iter.SeekToLast cfg s).restartIndex = cfg.numRestarts) := by
  unfold Iter.SeekToLast
  obtain ⟨u, hu, hustat⟩ :=
    scanWhile_shape cfg (fun t => decide (cfg.restarts ≤ Iter.NextEntryOffset cfg t))
      cfg.restarts (Iter.SeekToRestartPoint cfg (cfg.numRestarts - 1) s)
  rw [show Iter.seekFuel cfg = cfg.restarts + 1 from rfl, hu]
  constructor
  · rcases ParseNextKey_status cfg u with h | h
    · rw [h]; exact hustat
    · exact Or.inr h
  · exact ParseNextKey_inv cfg u

/-- A parse whose decode fails or whose shared length exceeds the held key
returns failure and the corrupt state. -/
theorem ParseNextKey_corrupt (cfg : BlockCfg) (s : IterState)
    (hlt : Iter.NextEntryOffset cfg s < cfg.restarts)
    (hbad : match DecodeEntry cfg.data (Iter.NextEntryOffset cfg s) cfg.restarts with
            | none => True
            | some (sh, _, _, _) => s.key.length < sh) :
    Iter.ParseNextKey cfg s = (false, Iter.CorruptionError cfg) := by
  simp only [Iter.ParseNextKey, if_neg (by omega : ¬ cfg.restarts ≤ Iter.NextEntryOffset cfg s)]
  cases hde : DecodeEntry cfg.data (Iter.NextEntryOffset cfg s) cfg.restarts with
  | none => simp
  | some r =>
    obtain ⟨sh, nsh, vl, p⟩ := r
    rw [hde] at hbad
    simp [if_pos hbad]

/-- One round of the restart binary search aborts with the corruption
signal when the restart point's entry fails to decode or decodes with a
nonzero shared length. -/
theorem seekBinaryLoop_corrupt_step (cfg : BlockCfg) (target : List Nat)
    (fuel left right : Nat) (hlr : left < right)
    (hbad : match DecodeEntry cfg.data
              (Iter.GetRestartPoint cfg ((left + right + 1) / 2)) cfg.restarts with
            | none => True
            | some (sh, _, _, _) => sh ≠ 0) :
    Iter.seekBinaryLoop cfg target (fuel + 1) left right = none := by
  simp only [Iter.seekBinaryLoop, if_pos hlr]
  cases hde : DecodeEntry cfg.data
      (Iter.GetRestartPoint cfg ((left + right + 1) / 2)) cfg.restarts with
  | none => simp
  | some r =>
    obtain ⟨sh, nsh, vl, kp⟩ := r
    rw [hde] at hbad
    simp [hbad]

/-- A corruption signal from the binary search makes the seek tail return
the corrupt state. -/
theorem seekScan_corrupt (cfg : BlockCfg) (target : List Nat) (left right : Nat)
    (ckc : Int) (s : IterState) (h : Iter.seekBinary cfg target left right = none) :
    Iter.seekScan cfg target left right ckc s = Iter.CorruptionError cfg := by
  simp only [Iter.seekScan, h]

/-- C4: malformed entries during navigation (header decode failure,
shared length exceeding the held key, or a restart point decoding with
nonzero shared length during Seek's binary search) drive the iterator into
the Invalid corrupt state with the Corruption status, and no operation ever
resets a non-ok status back to ok. -/
theorem c4_corruption_persistent :
    (∀ (cfg : BlockCfg) (s : IterState),
      Iter.NextEntryOffset cfg s < cfg.restarts →
      (match DecodeEntry cfg.data (Iter.NextEntryOffset cfg s) cfg.restarts with
       | none => True
       | some (sh, _, _, _) => s.key.length < sh) →
      Iter.ParseNextKey cfg s = (false, Iter.CorruptionError cfg) ∧
        Iter.Valid cfg (Iter.CorruptionError cfg) = false ∧
        (Iter.CorruptionError cfg).status = Status.corruption "bad entry in block") ∧
    (∀ (cfg : BlockCfg) (target : List Nat) (fuel left right : Nat),
      left < right →
      (match DecodeEntry cfg.data
          (Iter.GetRestartPoint cfg ((left + right + 1) / 2)) cfg.restarts with
       | none => True
       | some (sh, _, _, _) => sh ≠ 0) →
      Iter.seekBinaryLoop cfg target (fuel + 1) left right = none) ∧
    (∀ (cfg : BlockCfg) (target : List Nat) (left right : Nat) (ckc : Int) (s : IterState),
      Iter.seekBinary cfg target left right = none →
      Iter.seekScan cfg target left right ckc s = Iter.CorruptionError cfg ∧
        Iter.Valid cfg (Iter.seekScan cfg target left right ckc s) = false ∧
        (Iter.seekScan cfg target left right ckc s).status =
          Status.corruption "bad entry in block") ∧
    (∀ (cfg : BlockCfg) (target : List Nat) (s : IterState), s.status ≠ Status.ok →
      (Iter.Next cfg s).status ≠ Status.ok ∧ (Iter.Prev cfg s).status ≠ Status.ok ∧
      (Iter.Seek cfg target s).status ≠ Status.ok ∧
      (Iter.SeekToFirst cfg s).status ≠ Status.ok ∧
      (Iter.SeekToLast cfg s).status ≠ Status.ok) := by
  refine ⟨?_, ?_, ?_, ?_⟩
  · intro cfg s hlt hbad
    exact ⟨ParseNextKey_corrupt cfg s hlt hbad, by simp [Iter.Valid, Iter.CorruptionError], rfl⟩
  · intro cfg target fuel left right hlr hbad
    exact seekBinaryLoop_corrupt_step cfg target fuel left right hlr hbad
  · intro cfg target left right ckc s h
    have he := seekScan_corrupt cfg target left right ckc s h
    rw [he]
    exact ⟨rfl, by simp [Iter.Valid, Iter.CorruptionError], rfl⟩
  · intro cfg target s hs
    have hcne : (Status.corruption "bad entry in block") ≠ Status.ok := by
      intro h; cases h
    refine ⟨?_, ?_, ?_, ?_, ?_⟩
    · rcases (Next_post cfg s).1 with h | h <;> rw [h] <;> assumption
    · rcases (Prev_post cfg s).1 with h | h <;> rw [h] <;> assumption
    · rcases (Seek_post cfg target s).1 with h | h <;> rw [h] <;> assumption
    · rcases (SeekToFirst_post cfg s).1 with h | h <;> rw [h] <;> assumption
    · rcases (SeekToLast_post cfg s).1 with h | h <;> rw [h] <;> assumption

/-- Witness for C4 on concrete corrupt blocks: the first parse of
`dataBad` corrupts, the binary search over `dataShared`'s restart array
corrupts (restart point 1 decodes with shared = 1), and a seek on an
already-corrupt iterator keeps a non-ok status. -/
theorem c4_witness :
    Iter.ParseNextKey cfgBad (Iter.SeekToRestartPoint cfgBad 0 (initState cfgBad)) =
      (false, Iter.CorruptionError cfgBad) ∧
    Iter.seekBinaryLoop cfgShared [97] 2 0 1 = none ∧
    (Iter.Seek cfgShared [97] (Iter.CorruptionError cfgShared)).status ≠ Status.ok := by
  refine ⟨?_, ?_, ?_⟩
  · exact (c4_corruption_persistent.1 cfgBad _ (by decide) (by exact trivial)).1
  · exact c4_corruption_persistent.2.1 cfgShared [97] 1 0 1 (by decide)
      (by show (1 : Nat) ≠ 0; decide)
  · exact (c4_corruption_persistent.2.2.2 cfgShared [97] _ (by decide)).2.2.1

/-- C9: `Valid()` holds exactly when the current offset is below the
restart-array offset, and after construction and after every public
operation an invalid iterator carries the out-of-range sentinel restart
index. -/
theorem c9_valid_invariant (cfg : BlockCfg) (s : IterState) (target : List Nat) :
    ∀ t ∈ [initState cfg, Iter.Next cfg s, Iter.Prev cfg s, Iter.Seek cfg target s,
           Iter.SeekToFirst cfg s, Iter.SeekToLast cfg s],
      (Iter.Valid cfg t = true ↔ t.current < cfg.restarts) ∧
      (Iter.Valid cfg t = false → t.restartIndex = cfg.numRestarts) := by
  have hiff : ∀ u : IterState, Iter.Valid cfg u = true ↔ u.current < cfg.restarts := by
    intro u; simp [Iter.Valid]
  have hfalse : ∀ u : IterState, Iter.Valid cfg u = false → cfg.restarts ≤ u.current := by
    intro u hu
    simp only [Iter.Valid, decide_eq_false_iff_not] at hu
    omega
  intro t ht
  simp only [List.mem_cons, List.not_mem_nil, or_false] at ht
  rcases ht with rfl | rfl | rfl | rfl | rfl | rfl
  · exact ⟨hiff _, fun _ => rfl⟩
  · exact ⟨hiff _, fun hv => (Next_post cfg s).2 (hfalse _ hv)⟩
  · exact ⟨hiff _, fun hv => (Prev_post cfg s).2 (hfalse _ hv)⟩
  · exact ⟨hiff _, fun hv => (Seek_post cfg target s).2 (hfalse _ hv)⟩
  · exact ⟨hiff _, fun hv => (SeekToFirst_post cfg s).2 (hfalse _ hv)⟩
  · exact ⟨hiff _, fun hv => (SeekToLast_post cfg s).2 (hfalse _ hv)⟩

/-- Witness for C9 at a concrete block and operation. -/
theorem c9_witness :
    (Iter.Valid cfgEx (Iter.SeekToFirst cfgEx (initState cfgEx)) = true ↔
      (Iter.SeekToFirst cfgEx (initState cfgEx)).current < cfgEx.restarts) ∧
    (Iter.Valid cfgEx (Iter.SeekToFirst cfgEx (initState cfgEx)) = false →
      (Iter.SeekToFirst cfgEx (initState cfgEx)).restartIndex = cfgEx.numRestarts) :=
  c9_valid_invariant cfgEx (initState cfgEx) []
    (Iter.SeekToFirst cfgEx (initState cfgEx)) (by simp)

/-- C3: `new_iterator` classifies the buffer exactly as the construction
recorded it: structurally invalid buffers (too short, or a declared restart
count that cannot fit) give the always-invalid Corruption iterator, a zero
restart count gives the always-empty ok iterator, and anything else a live
iterator over the buffer. -/
theorem c3_new_iterator (data : List Nat) (cmp : List Nat → List Nat → Int) :
    (data.length < 4 ∨ (data.length - 4) / 4 < DecodeFixed32 data (data.length - 4) →
      Block.NewIterator (Block.ofContents data) cmp =
        BlockIterator.err (Status.corruption "bad block contents") ∧
      (Block.NewIterator (Block.ofContents data) cmp).valid = false ∧
      (Block.NewIterator (Block.ofContents data) cmp).status =
        Status.corruption "bad block contents") ∧
    (4 ≤ data.length → DecodeFixed32 data (data.length - 4) ≤ (data.length - 4) / 4 →
      DecodeFixed32 data (data.length - 4) = 0 →
      Block.NewIterator (Block.ofContents data) cmp = BlockIterator.empty ∧
      (Block.NewIterator (Block.ofContents data) cmp).valid = false ∧
      (Block.NewIterator (Block.ofContents data) cmp).status = Status.ok) ∧
    (4 ≤ data.length → DecodeFixed32 data (data.length - 4) ≤ (data.length - 4) / 4 →
      0 < DecodeFixed32 data (data.length - 4) →
      Block.NewIterator (Block.ofContents data) cmp =
        BlockIterator.live
          ⟨data, data.length - (1 + DecodeFixed32 data (data.length - 4)) * 4,
            DecodeFixed32 data (data.length - 4), cmp⟩
          (initState
            ⟨data, data.length - (1 + DecodeFixed32 data (data.length - 4)) * 4,
              DecodeFixed32 data (data.length - 4), cmp⟩) ∧
      (Block.NewIterator (Block.ofContents data) cmp).valid = false) := by
  refine ⟨?_, ?_, ?_⟩
  · intro h
    have hb : Block.ofContents data = ⟨data, 0, 0⟩ := by
      simp only [Block.ofContents]
      by_cases h4 : data.length < 4
      · rw [if_pos h4]
      · rw [if_neg h4]
        rcases h with h | h
        · omega
        · rw [if_pos h]
    rw [hb]
    exact ⟨rfl, rfl, rfl⟩
  · intro h4 hfit hz
    have hb : Block.ofContents data =
        ⟨data, data.length, data.length - (1 + DecodeFixed32 data (data.length - 4)) * 4⟩ := by
      simp only [Block.ofContents]
      rw [if_neg (by omega), if_neg (by omega)]
    rw [hb]
    have hni : Block.NewIterator
        ⟨data, data.length, data.length - (1 + DecodeFixed32 data (data.length - 4)) * 4⟩ cmp
          = BlockIterator.empty := by
      simp only [Block.NewIterator, Block.NumRestarts]
      rw [if_neg (by simp; omega)]
      rw [if_pos (by simpa using hz)]
    rw [hni]
    exact ⟨rfl, rfl, rfl⟩
  · intro h4 hfit hpos
    have hb : Block.ofContents data =
        ⟨data, data.length, data.length - (1 + DecodeFixed32 data (data.length - 4)) * 4⟩ := by
      simp only [Block.ofContents]
      rw [if_neg (by omega), if_neg (by omega)]
    rw [hb]
    have hni : Block.NewIterator
        ⟨data, data.length, data.length - (1 + DecodeFixed32 data (data.length - 4)) * 4⟩ cmp
          = BlockIterator.live
              ⟨data, data.length - (1 + DecodeFixed32 data (data.length - 4)) * 4,
                DecodeFixed32 data (data.length - 4), cmp⟩
              (initState
                ⟨data, data.length - (1 + DecodeFixed32 data (data.length - 4)) * 4,
                  DecodeFixed32 data (data.length - 4), cmp⟩) := by
      simp only [Block.NewIterator, Block.NumRestarts]
      rw [if_neg (by simp; omega)]
      rw [if_neg (by simpa using Nat.pos_iff_ne_zero.mp hpos)]
    rw [hni]
    refine ⟨rfl, ?_⟩
    simp [BlockIterator.valid, Iter.Valid, initState]

/-- Witness for C3: a 3-byte buffer yields the Corruption iterator, a
4-byte all-zero buffer yields the empty iterator, and `dataEx` yields a
live iterator. -/
theorem c3_witness :
    (Block.NewIterator (Block.ofContents [255, 255, 255]) bytewiseCmp =
       BlockIterator.err (Status.corruption "bad block contents") ∧
     (Block.NewIterator (Block.ofContents [255, 255, 255]) bytewiseCmp).valid = false ∧
     (Block.NewIterator (Block.ofContents [255, 255, 255]) bytewiseCmp).status =
       Status.corruption "bad block contents") ∧
    (Block.NewIterator (Block.ofContents [0, 0, 0, 0]) bytewiseCmp = BlockIterator.empty ∧
     (Block.NewIterator (Block.ofContents [0, 0, 0, 0]) bytewiseCmp).valid = false ∧
     (Block.NewIterator (Block.ofContents [0, 0, 0, 0]) bytewiseCmp).status = Status.ok) ∧
    Block.NewIterator (Block.ofContents dataEx) bytewiseCmp =
      BlockIterator.live cfgEx (initState cfgEx) := by
  refine ⟨?_, ?_, ?_⟩
  · exact (c3_new_iterator [255, 255, 255] bytewiseCmp).1 (by decide)
  · exact (c3_new_iterator [0, 0, 0, 0] bytewiseCmp).2.1 (by decide) (by decide) (by decide)
  · exact ((c3_new_iterator dataEx bytewiseCmp).2.2 (by decide) (by decide) (by decide)).1

/-- The varint decoder reads only bytes in `[p, limit)`. -/
theorem getVarint32Loop_ext (d d' : List Nat) (limit : Nat) :
    ∀ steps p shift acc, (∀ i, p ≤ i → i < limit → byteAt d i = byteAt d' i) →
      getVarint32Loop d limit steps p shift acc = getVarint32Loop d' limit steps p shift acc := by
  intro steps
  induction steps with
  | zero => intro p shift acc _; rfl
  | succ n ih =>
    intro p shift acc h
    simp only [getVarint32Loop]
    by_cases hp : p < limit
    · rw [if_pos hp, if_pos hp, h p le_rfl hp]
      by_cases hb : byteAt d' p < 128
      · rw [if_pos hb, if_pos hb]
      · rw [if_neg hb, if_neg hb]
        exact ih (p + 1) (shift + 7) _ (fun i hi hl => h i (by omega) hl)
    · rw [if_neg hp, if_neg hp]

/-- `DecodeEntry` reads only bytes in `[p, limit)`: it is a pure function
of that byte range. -/
theorem DecodeEntry_ext (d d' : List Nat) (p limit : Nat)
    (h : ∀ i, p ≤ i → i < limit → byteAt d i = byteAt d' i) :
    DecodeEntry d p limit = DecodeEntry d' p limit := by
  simp only [DecodeEntry]
  by_cases h3 : limit - p < 3
  · rw [if_pos h3, if_pos h3]
  · rw [if_neg h3, if_neg h3]
    have hp0 : byteAt d p = byteAt d' p := h p le_rfl (by omega)
    have hp1 : byteAt d (p + 1) = byteAt d' (p + 1) := h _ (by omega) (by omega)
    have hp2 : byteAt d (p + 2) = byteAt d' (p + 2) := h _ (by omega) (by omega)
    rw [hp0, hp1, hp2]
    have hv : GetVarint32 d p limit = GetVarint32 d' p limit :=
      getVarint32Loop_ext d d' limit 5 p 0 0 h
    by_cases hfast : byteAt d' p ||| byteAt d' (p + 1) ||| byteAt d' (p + 2) < 128
    · rw [if_pos hfast, if_pos hfast]
    · rw [if_neg hfast, if_neg hfast, hv]
      cases h1 : GetVarint32 d' p limit with
      | none => rfl
      | some r1 =>
        obtain ⟨v1, p1⟩ := r1
        have hpos1 := getVarint32Loop_pos d' limit 5 p 0 0 v1 p1 h1
        have hv2 : GetVarint32 d p1 limit = GetVarint32 d' p1 limit :=
          getVarint32Loop_ext d d' limit 5 p1 0 0 (fun i hi hl => h i (by omega) hl)
        simp only [hv2]
        cases h2 : GetVarint32 d' p1 limit with
        | none => rfl
        | some r2 =>
          obtain ⟨v2, p2⟩ := r2
          have hpos2 := getVarint32Loop_pos d' limit 5 p1 0 0 v2 p2 h2
          have hv3 : GetVarint32 d p2 limit = GetVarint32 d' p2 limit :=
            getVarint32Loop_ext d d' limit 5 p2 0 0 (fun i hi hl => h i (by omega) hl)
          simp only [hv3]

/-- Every successful `DecodeEntry` satisfies the final guard: the 32-bit
truncated sum of `non_shared` and `value_length` does not exceed the
(32-bit truncated) bytes remaining to the limit. -/
theorem DecodeEntry_bound (d : List Nat) (p limit sh nsh vl q : Nat)
    (h : DecodeEntry d p limit = some (sh, nsh, vl, q)) :
    ¬ (limit - q) % 2 ^ 32 < (nsh + vl) % 2 ^ 32 := by
  simp only [DecodeEntry] at h
  by_cases h3 : limit - p < 3
  · simp only [if_pos h3] at h
    exact Option.noConfusion h
  · simp only [if_neg h3] at h
    by_cases hfast : byteAt d p ||| byteAt d (p + 1) ||| byteAt d (p + 2) < 128
    · simp only [if_pos hfast] at h
      by_cases hbound :
          (limit - (p + 3)) % 2 ^ 32 < (byteAt d (p + 1) + byteAt d (p + 2)) % 2 ^ 32
      · simp only [if_pos hbound] at h
        exact Option.noConfusion h
      · simp only [if_neg hbound, Option.some.injEq, Prod.mk.injEq] at h
        obtain ⟨_, h2, h3', h4⟩ := h
        subst h2; subst h3'; subst h4
        exact hbound
    · simp only [if_neg hfast] at h
      cases h1 : GetVarint32 d p limit with
      | none => simp only [h1] at h; exact Option.noConfusion h
      | some r1 =>
        obtain ⟨v1, p1⟩ := r1
        simp only [h1] at h
        cases h2 : GetVarint32 d p1 limit with
        | none => simp only [h2] at h; exact Option.noConfusion h
        | some r2 =>
          obtain ⟨v2, p2⟩ := r2
          simp only [h2] at h
          cases h3' : GetVarint32 d p2 limit with
          | none => simp only [h3'] at h; exact Option.noConfusion h
          | some r3 =>
            obtain ⟨v3, p3⟩ := r3
            simp only [h3'] at h
            by_cases hbound : (limit - p3) % 2 ^ 32 < (v2 + v3) % 2 ^ 32
            · simp only [if_pos hbound] at h
              exact Option.noConfusion h
            · simp only [if_neg hbound, Option.some.injEq, Prod.mk.injEq] at h
              obtain ⟨_, hb2, hb3, hb4⟩ := h
              subst hb2; subst hb3; subst hb4
              exact hbound

/-- C5 (amended): `decode_entry` fails below three remaining bytes; with
the fast-path condition it takes the three raw bytes as the lengths with
the suffix at `p+3` (subject to the final guard); every success satisfies
the final guard, in which the sum `non_shared + value_len` is computed in
32-bit arithmetic (it can wrap); and the result depends only on the bytes
in `[p, limit)`. -/
theorem c5_decode_entry (d : List Nat) (p limit : Nat) :
    (limit - p < 3 → DecodeEntry d p limit = none) ∧
    (3 ≤ limit - p → byteAt d p ||| byteAt d (p + 1) ||| byteAt d (p + 2) < 128 →
      DecodeEntry d p limit =
        (if (limit - (p + 3)) % 2 ^ 32 < (byteAt d (p + 1) + byteAt d (p + 2)) % 2 ^ 32
         then none
         else some (byteAt d p, byteAt d (p + 1), byteAt d (p + 2), p + 3))) ∧
    (∀ sh nsh vl q, DecodeEntry d p limit = some (sh, nsh, vl, q) →
      ¬ (limit - q) % 2 ^ 32 < (nsh + vl) % 2 ^ 32) ∧
    (∀ d', (∀ i, p ≤ i → i < limit → byteAt d i = byteAt d' i) →
      DecodeEntry d p limit = DecodeEntry d' p limit) := by
  refine ⟨?_, ?_, ?_, ?_⟩
  · intro h3
    simp [DecodeEntry, if_pos h3]
  · intro h3 hfast
    simp only [DecodeEntry, if_neg (by omega : ¬ limit - p < 3), if_pos hfast]
  · exact fun sh nsh vl q h => DecodeEntry_bound d p limit sh nsh vl q h
  · exact fun d' h => DecodeEntry_ext d d' p limit h

/-- Counterexample to C5 as stated: on `dataOv` the decoder obtains
`non_shared = 2^32 - 1` and `value_len = 1`, whose (mathematical) sum far
exceeds the single byte remaining before the limit, yet `DecodeEntry`
succeeds — the guard compares the wrapped 32-bit sum, which is 0. -/
theorem c5_counterexample :
    DecodeEntry dataOv 0 8 = some (0, 4294967295, 1, 7) ∧ 8 - 7 < 4294967295 + 1 := by
  constructor
  · decide
  · decide

/-- Witness for C5 on the fast path of `dataEx`. -/
theorem c5_witness :
    (8 - 20 < 3 → DecodeEntry dataEx 20 8 = none) ∧
    (3 ≤ 15 - 0 → byteAt dataEx 0 ||| byteAt dataEx 1 ||| byteAt dataEx 2 < 128 →
      DecodeEntry dataEx 0 15 =
        (if (15 - 3) % 2 ^ 32 < (byteAt dataEx 1 + byteAt dataEx 2) % 2 ^ 32
         then none
         else some (byteAt dataEx 0, byteAt dataEx 1, byteAt dataEx 2, 3))) := by
  constructor
  · exact (c5_decode_entry dataEx 20 8).1
  · exact fun h1 h2 => ((c5_decode_entry dataEx 0 15).2.1 : _) h1 h2

/-- C10 (evaluating the code at the failing input): on `dataOv` the first
parse succeeds and installs a value view starting at offset 4294967302 of a
16-byte block whose restart array begins at offset 8 — the view lies far
outside the entry region, because `DecodeEntry`'s guard compared the
wrapped 32-bit sum of the lengths. -/
theorem c10_value_overflow :
    DecodeEntry dataOv 0 8 = some (0, 4294967295, 1, 7) ∧
    Iter.Valid cfgOv (Iter.SeekToFirst cfgOv (initState cfgOv)) = true ∧
    (Iter.SeekToFirst cfgOv (initState cfgOv)).value = some (4294967302, 1) ∧
    cfgOv.restarts = 8 := by
  refine ⟨by decide, by decide, by decide, rfl⟩

/-- The advance loop never moves the restart index backward. -/
theorem advLoop_le (cfg : BlockCfg) :
    ∀ fuel ri c, ri ≤ Iter.advLoop cfg fuel ri c := by
  intro fuel
  induction fuel with
  | zero => intro ri c; exact le_rfl
  | succ n ih =>
    intro ri c
    simp only [Iter.advLoop]
    split
    · exact le_trans (by omega) (ih (ri + 1) c)
    · exact le_rfl

/-- The advance loop either stays put or lands on a restart point strictly
before the current offset. -/
theorem advLoop_moved (cfg : BlockCfg) :
    ∀ fuel ri c, Iter.advLoop cfg fuel ri c = ri ∨
      (Iter.GetRestartPoint cfg (Iter.advLoop cfg fuel ri c) < c ∧
        Iter.advLoop cfg fuel ri c < cfg.numRestarts) := by
  intro fuel
  induction fuel with
  | zero => intro ri c; exact Or.inl rfl
  | succ n ih =>
    intro ri c
    simp only [Iter.advLoop]
    by_cases hc : ri + 1 < cfg.numRestarts ∧ Iter.GetRestartPoint cfg (ri + 1) < c
    · rw [if_pos hc]
      rcases ih (ri + 1) c with h | h
      · right; rw [h]; exact ⟨hc.2, hc.1⟩
      · right; exact h
    · rw [if_neg hc]; exact Or.inl rfl

/-- With adequate fuel the advance loop stops exactly when the next restart
point (if any) is at or past the current offset. -/
theorem advLoop_stop (cfg : BlockCfg) :
    ∀ fuel ri c, cfg.numRestarts ≤ fuel + ri →
      Iter.advLoop cfg fuel ri c + 1 < cfg.numRestarts →
      c ≤ Iter.GetRestartPoint cfg (Iter.advLoop cfg fuel ri c + 1) := by
  intro fuel
  induction fuel with
  | zero =>
    intro ri c hfuel hlt
    simp only [Iter.advLoop] at hlt ⊢
    omega
  | succ n ih =>
    intro ri c hfuel hlt
    simp only [Iter.advLoop] at hlt ⊢
    by_cases hc : ri + 1 < cfg.numRestarts ∧ Iter.GetRestartPoint cfg (ri + 1) < c
    · rw [if_pos hc] at hlt ⊢
      exact ih (ri + 1) c (by omega) hlt
    · rw [if_neg hc] at hlt ⊢
      omega

/-- C7 (amended): a successful `ParseNextEntry` advances the restart index
forward exactly while the next restart point's offset is strictly less than
the new entry's offset; consequently the restart point at
`restart_region_index + 1` (if one exists) afterwards has an offset at or
past — not necessarily strictly past — the current entry's offset. -/
theorem c7_advance (cfg : BlockCfg) (s s' : IterState)
    (h : Iter.ParseNextKey cfg s = (true, s')) :
    s.restartIndex ≤ s'.restartIndex ∧
    (s'.restartIndex = s.restartIndex ∨
      Iter.GetRestartPoint cfg s'.restartIndex < s'.current) ∧
    (s'.restartIndex + 1 < cfg.numRestarts →
      s'.current ≤ Iter.GetRestartPoint cfg (s'.restartIndex + 1)) := by
  simp only [Iter.ParseNextKey] at h
  by_cases h1 : cfg.restarts ≤ Iter.NextEntryOffset cfg s
  · simp [h1] at h
  · simp only [if_neg h1] at h
    cases hde : DecodeEntry cfg.data (Iter.NextEntryOffset cfg s) cfg.restarts with
    | none => simp [hde] at h
    | some r =>
      obtain ⟨sh, nsh, vl, p⟩ := r
      simp only [hde] at h
      by_cases h3 : s.key.length < sh
      · simp [h3] at h
      · simp only [if_neg h3, Prod.mk.injEq] at h
        obtain ⟨-, hs'⟩ := h
        subst hs'
        refine ⟨advLoop_le cfg cfg.numRestarts s.restartIndex _, ?_, ?_⟩
        · rcases advLoop_moved cfg cfg.numRestarts s.restartIndex
            (Iter.NextEntryOffset cfg s) with hm | ⟨hm, _⟩
          · exact Or.inl hm
          · exact Or.inr hm
        · intro hlt
          exact advLoop_stop cfg cfg.numRestarts s.restartIndex
            (Iter.NextEntryOffset cfg s) (by omega) hlt

/-- Counterexample to C7 as stated: on `dataC7` a `Next` from the first
entry succeeds and lands on the entry starting exactly at restart point 1's
offset; the code's strict comparison leaves `restart_index_` at 0, and the
restart point at index 1 has offset equal to — not strictly greater
than — the entry's offset. -/
theorem c7_counterexample :
    (Iter.ParseNextKey cfgC7 (Iter.SeekToFirst cfgC7 (initState cfgC7))).1 = true ∧
    (Iter.ParseNextKey cfgC7 (Iter.SeekToFirst cfgC7 (initState cfgC7))).2.restartIndex + 1 <
      cfgC7.numRestarts ∧
    ¬ ((Iter.ParseNextKey cfgC7 (Iter.SeekToFirst cfgC7 (initState cfgC7))).2.current <
        Iter.GetRestartPoint cfgC7
          ((Iter.ParseNextKey cfgC7 (Iter.SeekToFirst cfgC7 (initState cfgC7))).2.restartIndex + 1)) := by
  refine ⟨by decide, by decide, by decide⟩

/-- Witness for C7 on `dataC7`. -/
theorem c7_witness :
    (Iter.SeekToFirst cfgC7 (initState cfgC7)).restartIndex ≤
      (Iter.ParseNextKey cfgC7 (Iter.SeekToFirst cfgC7 (initState cfgC7))).2.restartIndex ∧
    ((Iter.ParseNextKey cfgC7 (Iter.SeekToFirst cfgC7 (initState cfgC7))).2.restartIndex =
        (Iter.SeekToFirst cfgC7 (initState cfgC7)).restartIndex ∨
      Iter.GetRestartPoint cfgC7
          (Iter.ParseNextKey cfgC7 (Iter.SeekToFirst cfgC7 (initState cfgC7))).2.restartIndex <
        (Iter.ParseNextKey cfgC7 (Iter.SeekToFirst cfgC7 (initState cfgC7))).2.current) ∧
    ((Iter.ParseNextKey cfgC7 (Iter.SeekToFirst cfgC7 (initState cfgC7))).2.restartIndex + 1 <
        cfgC7.numRestarts →
      (Iter.ParseNextKey cfgC7 (Iter.SeekToFirst cfgC7 (initState cfgC7))).2.current ≤
        Iter.GetRestartPoint cfgC7
          ((Iter.ParseNextKey cfgC7 (Iter.SeekToFirst cfgC7 (initState cfgC7))).2.restartIndex + 1)) :=
  c7_advance cfgC7 (Iter.SeekToFirst cfgC7 (initState cfgC7)) _ (by decide)

/-! ### Well-formed block basic facts -/

/-- `entAt` agrees with indexed access in range. -/
theorem entAt_eq_getElem (es : List Entry) {j : Nat} (hj : j < es.length) :
    entAt es j = es[j] := List.getD_eq_getElem es default hj

/-- `entAt` yields list members in range. -/
theorem entAt_mem (es : List Entry) {j : Nat} (hj : j < es.length) :
    entAt es j ∈ es := by
  rw [entAt_eq_getElem es hj]; exact List.getElem_mem hj

theorem wf_restarts_lt {cfg : BlockCfg} {es : List Entry} (hwf : WFBlock cfg es) :
    cfg.restarts < 2 ^ 32 := by
  have h1 := hwf.geom
  have h2 := hwf.size32
  omega

theorem wf_n_pos {cfg : BlockCfg} {es : List Entry} (hwf : WFBlock cfg es) :
    0 < es.length := List.length_pos.mpr hwf.ne

theorem wf_len_le {cfg : BlockCfg} {es : List Entry} (hwf : WFBlock cfg es) :
    es.length ≤ cfg.restarts := by
  have h1 := chain_length_bound hwf.chain
  omega

/-- Keys are strictly ascending along the entry list. -/
theorem wf_sorted_lt {cfg : BlockCfg} {es : List Entry} (hwf : WFBlock cfg es)
    {i j : Nat} (hij : i < j) (hj : j < es.length) :
    cfg.cmp (entAt es i).key (entAt es j).key < 0 := by
  rw [entAt_eq_getElem es (by omega), entAt_eq_getElem es hj]
  exact List.pairwise_iff_getElem.mp hwf.sorted i j (by omega) hj hij

/-- The first entry starts at offset 0. -/
theorem wf_off_zero {cfg : BlockCfg} {es : List Entry} (hwf : WFBlock cfg es) :
    (entAt es 0).off = 0 := chain_off_head hwf.chain hwf.ne

/-- Every restart point is the offset of a unique entry. -/
theorem wf_restart_entry {cfg : BlockCfg} {es : List Entry} (hwf : WFBlock cfg es)
    {i : Nat} (hi : i < cfg.numRestarts) :
    ∃ m, m < es.length ∧ (entAt es m).off = Iter.GetRestartPoint cfg i := by
  obtain ⟨e, he, hoff⟩ := hwf.restartMap i hi
  obtain ⟨m, hm, rfl⟩ := List.mem_iff_getElem.mp he
  exact ⟨m, hm, by rw [entAt_eq_getElem es hm]; exact hoff⟩

/-- Entry offsets determine the index. -/
theorem wf_off_inj {cfg : BlockCfg} {es : List Entry} (hwf : WFBlock cfg es)
    {i j : Nat} (hi : i < es.length) (hj : j < es.length)
    (h : (entAt es i).off = (entAt es j).off) : i = j := by
  by_contra hne
  rcases Nat.lt_or_ge i j with hlt | hge
  · have := chain_off_mono hwf.chain i j hlt hj
    omega
  · have hlt : j < i := by omega
    have := chain_off_mono hwf.chain j i hlt hi
    omega

/-- Restart point 0 is the offset of entry 0. -/
theorem wf_restart_zero_entry {cfg : BlockCfg} {es : List Entry} (hwf : WFBlock cfg es) :
    (entAt es 0).off = Iter.GetRestartPoint cfg 0 := by
  rw [wf_off_zero hwf, hwf.restartZero]

/-- Offsets of entries after index 0 are positive. -/
theorem wf_off_pos {cfg : BlockCfg} {es : List Entry} (hwf : WFBlock cfg es)
    {j : Nat} (hj : j < es.length) (hpos : 0 < j) : 0 < (entAt es j).off := by
  have h0 := wf_off_zero hwf
  have := chain_off_mono hwf.chain 0 j hpos hj
  omega

/-! ### The canonical restart-region index -/

theorem cri_lt_num {cfg : BlockCfg} {es : List Entry} (hwf : WFBlock cfg es) (x : Nat) :
    cri cfg x < cfg.numRestarts := by
  have h1 : cri cfg x ≤ cfg.numRestarts - 1 := Nat.findGreatest_le _
  have h2 := hwf.numPos
  omega

theorem cri_le {cfg : BlockCfg} {es : List Entry} (hwf : WFBlock cfg es) (x : Nat) :
    Iter.GetRestartPoint cfg (cri cfg x) ≤ x := by
  unfold cri
  by_cases hx : 0 < x
  · have hp : Iter.GetRestartPoint cfg 0 < x := by rw [hwf.restartZero]; omega
    have := Nat.findGreatest_spec (P := fun i => Iter.GetRestartPoint cfg i < x)
      (Nat.zero_le (cfg.numRestarts - 1)) hp
    omega
  · have hx0 : x = 0 := by omega
    subst hx0
    have hz : Nat.findGreatest (fun i => Iter.GetRestartPoint cfg i < 0)
        (cfg.numRestarts - 1) = 0 := by
      apply Nat.findGreatest_eq_zero_iff.mpr
      intro n _ _ hn
      omega
    rw [hz, hwf.restartZero]

theorem cri_next {cfg : BlockCfg} {es : List Entry} (hwf : WFBlock cfg es) (x : Nat)
    (h : cri cfg x + 1 < cfg.numRestarts) :
    x ≤ Iter.GetRestartPoint cfg (cri cfg x + 1) := by
  unfold cri at h ⊢
  have hng := Nat.findGreatest_is_greatest
    (P := fun i => Iter.GetRestartPoint cfg i < x) (n := cfg.numRestarts - 1)
    (k := Nat.findGreatest (fun i => Iter.GetRestartPoint cfg i < x)
      (cfg.numRestarts - 1) + 1) (by omega) (by omega)
  omega

/-- Characterization of the canonical restart-region index. -/
theorem cri_eq_of {cfg : BlockCfg} {es : List Entry} (hwf : WFBlock cfg es)
    {i x : Nat} (hi : i < cfg.numRestarts) (hlt : Iter.GetRestartPoint cfg i < x)
    (hnext : i + 1 < cfg.numRestarts → x ≤ Iter.GetRestartPoint cfg (i + 1)) :
    cri cfg x = i := by
  unfold cri
  have hge : i ≤ Nat.findGreatest (fun k => Iter.GetRestartPoint cfg k < x)
      (cfg.numRestarts - 1) := Nat.le_findGreatest (by omega) hlt
  by_contra hne
  have hgt : i < Nat.findGreatest (fun k => Iter.GetRestartPoint cfg k < x)
      (cfg.numRestarts - 1) := by omega
  have hcnum := cri_lt_num hwf x
  unfold cri at hcnum
  have hi1 : i + 1 < cfg.numRestarts := by omega
  have hxle : x ≤ Iter.GetRestartPoint cfg (i + 1) := hnext hi1
  have hspec : Iter.GetRestartPoint cfg
      (Nat.findGreatest (fun k => Iter.GetRestartPoint cfg k < x) (cfg.numRestarts - 1)) < x :=
    Nat.findGreatest_spec (P := fun k => Iter.GetRestartPoint cfg k < x)
      (m := i) (by omega) hlt
  rcases Nat.lt_or_ge (i + 1)
      (Nat.findGreatest (fun k => Iter.GetRestartPoint cfg k < x) (cfg.numRestarts - 1)) with hl | hg
  · have := hwf.restartMono (i + 1) _ hl hcnum
    omega
  · have hceq : Nat.findGreatest (fun k => Iter.GetRestartPoint cfg k < x)
        (cfg.numRestarts - 1) = i + 1 := by omega
    rw [hceq] at hspec
    omega

/-- The advance loop stays put when its condition fails at entry. -/
theorem advLoop_stay (cfg : BlockCfg) (fuel ri c : Nat)
    (h : ¬(ri + 1 < cfg.numRestarts ∧ Iter.GetRestartPoint cfg (ri + 1) < c)) :
    Iter.advLoop cfg fuel ri c = ri := by
  cases fuel with
  | zero => rfl
  | succ f => simp only [Iter.advLoop]; rw [if_neg h]

/-- The restart-index advance stays put when its condition fails. -/
theorem adv_stay (cfg : BlockCfg) (ri c : Nat)
    (h : ¬(ri + 1 < cfg.numRestarts ∧ Iter.GetRestartPoint cfg (ri + 1) < c)) :
    Iter.advanceRestartIndex cfg ri c = ri :=
  advLoop_stay cfg cfg.numRestarts ri c h

/-- When the incoming region's restart point lies strictly before the new
offset, the advance lands exactly on the canonical region index. -/
theorem adv_exact {cfg : BlockCfg} {es : List Entry} (hwf : WFBlock cfg es)
    {ri c : Nat} (hri : ri < cfg.numRestarts)
    (hlt : Iter.GetRestartPoint cfg ri < c) :
    Iter.advanceRestartIndex cfg ri c = cri cfg c := by
  have hle := advLoop_le cfg cfg.numRestarts ri c
  have hmoved := advLoop_moved cfg cfg.numRestarts ri c
  have hstop := advLoop_stop cfg cfg.numRestarts ri c (by omega)
  have hrlt : Iter.advLoop cfg cfg.numRestarts ri c < cfg.numRestarts := by
    rcases hmoved with h | ⟨_, h⟩
    · omega
    · exact h
  have hrltc : Iter.GetRestartPoint cfg (Iter.advLoop cfg cfg.numRestarts ri c) < c := by
    rcases hmoved with h | ⟨h, _⟩
    · rw [h]; exact hlt
    · exact h
  exact (cri_eq_of hwf hrlt hrltc hstop).symm

/-- The canonical region index satisfies the placement invariant at any
entry. -/
theorem RIgood_cri {cfg : BlockCfg} {es : List Entry} (hwf : WFBlock cfg es)
    {j : Nat} (hj : j < es.length) :
    RIgood cfg es (cri cfg (entAt es j).off) j :=
  ⟨cri_lt_num hwf _, cri_le hwf _, fun h => cri_next hwf _ h⟩

/-- Advancing from any well-placed region index lands on the canonical
region index of the next entry. -/
theorem adv_from_RIgood {cfg : BlockCfg} {es : List Entry} (hwf : WFBlock cfg es)
    {ri j : Nat} (hri : RIgood cfg es ri j) (hj1 : j + 1 < es.length) :
    Iter.advanceRestartIndex cfg ri (entAt es (j + 1)).off =
      cri cfg (entAt es (j + 1)).off := by
  apply adv_exact hwf hri.1
  have h2 := hri.2.1
  have hstep := chain_off_mono hwf.chain j (j + 1) (by omega) hj1
  omega

/-- On a state parked at entry `j`, the next parse begins exactly at the
entry's end. -/
theorem NextEntryOffset_entryState {cfg : BlockCfg} {es : List Entry}
    (hwf : WFBlock cfg es) {j : Nat} (hj : j < es.length) (ri : Nat) (st : Status) :
    Iter.NextEntryOffset cfg (entryState (entAt es j) ri st) = entryEnd (entAt es j) := by
  have hb := (chain_bounds hwf.chain hj).2
  have hlt := wf_restarts_lt hwf
  simp only [Iter.NextEntryOffset, entryState]
  unfold entryEnd at hb ⊢
  exact Nat.mod_eq_of_lt (by omega)

/-- Parsing forward from entry `j` (when entry `j+1` exists) succeeds and
lands on entry `j+1`, advancing the region index. -/
theorem parse_entry_step {cfg : BlockCfg} {es : List Entry} (hwf : WFBlock cfg es)
    {j : Nat} (hj1 : j + 1 < es.length) (ri : Nat) (st : Status) :
    Iter.ParseNextKey cfg (entryState (entAt es j) ri st) =
      (true, entryState (entAt es (j + 1))
        (Iter.advanceRestartIndex cfg ri (entAt es (j + 1)).off) st) := by
  have hne := NextEntryOffset_entryState hwf (show j < es.length by omega) ri st
  have hadj : (entAt es (j + 1)).off = entryEnd (entAt es j) := chain_adj hwf.chain hj1
  obtain ⟨sh, nsh, vl, p, hde, hsh, hkey, hvoff, hvlen, hofflt, hendle, _⟩ :=
    chain_main hwf.chain (j + 1) hj1
  have hprev : prevKeyOf [] es (j + 1) = (entAt es j).key := by
    simp [prevKeyOf]
  rw [hprev] at hsh hkey
  simp only [Iter.ParseNextKey, hne, ← hadj]
  rw [if_neg (by omega : ¬ cfg.restarts ≤ (entAt es (j + 1)).off)]
  rw [hde]
  simp only [entryState]
  rw [if_neg (by simpa using (by omega : ¬ (entAt es j).key.length < sh))]
  rw [← hkey, ← hvoff, ← hvlen]

/-- Parsing forward from the last entry fails and leaves the exhausted
state. -/
theorem parse_entry_end {cfg : BlockCfg} {es : List Entry} (hwf : WFBlock cfg es)
    {j : Nat} (hj : j + 1 = es.length) (ri : Nat) (st : Status) :
    Iter.ParseNextKey cfg (entryState (entAt es j) ri st) =
      (false, exhaustState cfg es st) := by
  have hne := NextEntryOffset_entryState hwf (show j < es.length by omega) ri st
  have hlast : entryEnd (entAt es j) = cfg.restarts := by
    have h := chain_last_end hwf.chain hwf.ne
    rw [show es.length - 1 = j by omega] at h
    exact h
  simp only [Iter.ParseNextKey, hne, hlast]
  rw [if_pos le_rfl]
  simp only [entryState, exhaustState]
  rw [show es.length - 1 = j by omega]

/-- Parsing from a freshly repositioned restart point succeeds and lands on
the restart point's entry with the region index set to that restart point. -/
theorem parse_restart {cfg : BlockCfg} {es : List Entry} (hwf : WFBlock cfg es)
    {r : Nat} (hr : r < cfg.numRestarts) (s : IterState) :
    ∃ m, m < es.length ∧ (entAt es m).off = Iter.GetRestartPoint cfg r ∧
      Iter.ParseNextKey cfg (Iter.SeekToRestartPoint cfg r s) =
        (true, entryState (entAt es m) r s.status) := by
  obtain ⟨m, hm, hoff⟩ := wf_restart_entry hwf hr
  refine ⟨m, hm, hoff, ?_⟩
  have hofflt : (entAt es m).off < cfg.restarts := (chain_bounds hwf.chain hm).1
  have hr32 := wf_restarts_lt hwf
  have hne : Iter.NextEntryOffset cfg (Iter.SeekToRestartPoint cfg r s) =
      (entAt es m).off := by
    simp only [Iter.NextEntryOffset, Iter.SeekToRestartPoint, ← hoff]
    exact Nat.mod_eq_of_lt (by omega)
  obtain ⟨sh, nsh, vl, p, hde, hsh, hkey, hvoff, hvlen, _, _, _⟩ :=
    chain_main hwf.chain m hm
  obtain ⟨nsh', vl', p', hde0⟩ := hwf.restartShared r hr
  rw [← hoff] at hde0
  have hinj := hde.symm.trans hde0
  simp only [Option.some.injEq, Prod.mk.injEq] at hinj
  obtain ⟨hsh0, hnsh, hvl, hp⟩ := hinj
  subst hsh0; subst hnsh; subst hvl; subst hp
  have hadv : Iter.advanceRestartIndex cfg r (entAt es m).off = r := by
    apply adv_stay
    intro ⟨h1, h2⟩
    have := hwf.restartMono r (r + 1) (by omega) h1
    omega
  simp only [Iter.ParseNextKey, hne]
  rw [if_neg (by omega : ¬ cfg.restarts ≤ (entAt es m).off)]
  rw [hde]
  simp only [Iter.SeekToRestartPoint]
  rw [if_neg (by simp)]
  simp only [entryState, hadv]
  rw [← hvoff, ← hvlen]
  have hkey' : (entAt es m).key = listSlice cfg.data p nsh := by
    rw [hkey]; simp
  rw [hkey']
  simp

/-! ### findFrom facts -/

theorem findFrom_ge (es : List Entry) (p : Entry → Bool) {m : Nat}
    (h : es.length ≤ m) : findFrom es p m = none := by
  unfold findFrom
  rw [show es.length - m = 0 by omega]
  rfl

theorem findFrom_step (es : List Entry) (p : Entry → Bool) {m : Nat}
    (h : m < es.length) :
    findFrom es p m = if p (entAt es m) then some m else findFrom es p (m + 1) := by
  unfold findFrom
  rw [show es.length - m = (es.length - (m + 1)) + 1 by omega]
  simp only [findFromF, if_pos h]

theorem findFrom_someD (es : List Entry) (p : Entry → Bool) :
    ∀ fuel m q, es.length - m ≤ fuel → findFrom es p m = some q →
      m ≤ q ∧ q < es.length ∧ p (entAt es q) = true ∧
        ∀ i, m ≤ i → i < q → p (entAt es i) = false := by
  intro fuel
  induction fuel with
  | zero =>
    intro m q hf h
    rw [findFrom_ge es p (by omega)] at h
    exact Option.noConfusion h
  | succ f ih =>
    intro m q hf h
    by_cases hm : m < es.length
    · rw [findFrom_step es p hm] at h
      by_cases hp : p (entAt es m) = true
      · rw [if_pos hp] at h
        obtain rfl : m = q := by simpa using h
        exact ⟨le_rfl, hm, hp, fun i h1 h2 => by omega⟩
      · rw [if_neg hp] at h
        obtain ⟨h1, h2, h3, h4⟩ := ih (m + 1) q (by omega) h
        refine ⟨by omega, h2, h3, ?_⟩
        intro i hi1 hi2
        rcases Nat.eq_or_lt_of_le hi1 with rfl | hlt
        · simpa using hp
        · exact h4 i (by omega) hi2
    · rw [findFrom_ge es p (by omega)] at h
      exact Option.noConfusion h

/-- Facts about a successful `findFrom`. -/
theorem findFrom_some (es : List Entry) (p : Entry → Bool) {m q : Nat}
    (h : findFrom es p m = some q) :
    m ≤ q ∧ q < es.length ∧ p (entAt es q) = true ∧
      ∀ i, m ≤ i → i < q → p (entAt es i) = false :=
  findFrom_someD es p es.length m q (by omega) h

theorem findFrom_noneD (es : List Entry) (p : Entry → Bool) :
    ∀ fuel m, es.length - m ≤ fuel → findFrom es p m = none →
      ∀ i, m ≤ i → i < es.length → p (entAt es i) = false := by
  intro fuel
  induction fuel with
  | zero => intro m hf _ i h1 h2; omega
  | succ f ih =>
    intro m hf h i h1 h2
    have hm : m < es.length := by omega
    rw [findFrom_step es p hm] at h
    by_cases hp : p (entAt es m) = true
    · rw [if_pos hp] at h; exact Option.noConfusion h
    · rw [if_neg hp] at h
      rcases Nat.eq_or_lt_of_le h1 with rfl | hlt
      · simpa using hp
      · exact ih (m + 1) (by omega) h i (by omega) h2

/-- Facts about a failed `findFrom`. -/
theorem findFrom_none (es : List Entry) (p : Entry → Bool) {m : Nat}
    (h : findFrom es p m = none) :
    ∀ i, m ≤ i → i < es.length → p (entAt es i) = false :=
  findFrom_noneD es p es.length m (by omega) h

theorem findFrom_congrD (es : List Entry) (p : Entry → Bool) :
    ∀ fuel m m', m ≤ m' → m' - m ≤ fuel →
      (∀ i, m ≤ i → i < m' → p (entAt es i) = false) →
      findFrom es p m = findFrom es p m' := by
  intro fuel
  induction fuel with
  | zero => intro m m' h1 h2 _; rw [show m = m' by omega]
  | succ f ih =>
    intro m m' h1 h2 hfalse
    rcases Nat.eq_or_lt_of_le h1 with rfl | hlt
    · rfl
    · by_cases hm : m < es.length
      · rw [findFrom_step es p hm, if_neg (by simp [hfalse m le_rfl hlt])]
        exact ih (m + 1) m' (by omega) (by omega) (fun i hi1 hi2 => hfalse i (by omega) hi2)
      · rw [findFrom_ge es p (by omega), findFrom_ge es p (by omega)]

/-- A `findFrom` may start anywhere below its first hit. -/
theorem findFrom_congr (es : List Entry) (p : Entry → Bool) {m m' : Nat}
    (h1 : m ≤ m') (hfalse : ∀ i, m ≤ i → i < m' → p (entAt es i) = false) :
    findFrom es p m = findFrom es p m' :=
  findFrom_congrD es p m' m m' h1 (by omega) hfalse

/-! ### The scan loop over a well-formed block -/

/-- The master scan lemma: a `scanWhile` started on entry `j` of a
well-formed block walks forward and halts on the first later entry whose
entry-level stop condition holds, parked there with the canonical region
index — or runs off the end into the exhausted state. -/
theorem scan_spec {cfg : BlockCfg} {es : List Entry} (hwf : WFBlock cfg es)
    (stop : IterState → Bool) (stopE : Entry → Bool)
    (hstop : ∀ e ∈ es, ∀ ri st, stop (entryState e ri st) = stopE e) :
    ∀ fuel j ri st, j < es.length → RIgood cfg es ri j → es.length - j ≤ fuel →
      Iter.scanWhile cfg stop fuel (entryState (entAt es j) ri st) =
        match findFrom es stopE (j + 1) with
        | some q => entryState (entAt es q) (cri cfg (entAt es q).off) st
        | none => exhaustState cfg es st := by
  intro fuel
  induction fuel with
  | zero => intro j ri st hj _ hf; omega
  | succ f ih =>
    intro j ri st hj hri hf
    by_cases hj1 : j + 1 < es.length
    · have hstep := parse_entry_step hwf hj1 ri st
      have hadv := adv_from_RIgood hwf hri hj1
      simp only [Iter.scanWhile, hstep, hadv]
      rw [hstop _ (entAt_mem es hj1) _ st]
      by_cases hse : stopE (entAt es (j + 1)) = true
      · rw [hse]
        rw [findFrom_step es stopE hj1, if_pos hse]
        simp
      · have hse' : stopE (entAt es (j + 1)) = false := by
          revert hse; cases stopE (entAt es (j + 1)) <;> simp
        rw [hse']
        rw [if_pos (show ((true && !false) = true) from rfl)]
        rw [findFrom_step es stopE hj1, hse']
        rw [if_neg (show ¬ (false = true) by decide)]
        exact ih (j + 1) _ st hj1 (RIgood_cri hwf hj1) (by omega)
    · have hj1' : j + 1 = es.length := by omega
      have hstep := parse_entry_end hwf hj1' ri st
      simp only [Iter.scanWhile, hstep]
      rw [findFrom_ge es stopE (by omega)]
      simp

/-- The scan lemma for a scan launched by `SeekToRestartPoint r`: the first
parse lands on the restart point's entry `m`, with region index `r` when it
stops there and the canonical index when it walks further. -/
theorem scan_restart_spec {cfg : BlockCfg} {es : List Entry} (hwf : WFBlock cfg es)
    (stop : IterState → Bool) (stopE : Entry → Bool)
    (hstop : ∀ e ∈ es, ∀ ri st, stop (entryState e ri st) = stopE e)
    {r : Nat} (hr : r < cfg.numRestarts) {m : Nat} (hm : m < es.length)
    (hoff : (entAt es m).off = Iter.GetRestartPoint cfg r) (s : IterState)
    {fuel : Nat} (hf : es.length + 1 - m ≤ fuel) :
    Iter.scanWhile cfg stop fuel (Iter.SeekToRestartPoint cfg r s) =
      match findFrom es stopE m with
      | some q =>
        entryState (entAt es q) (if q = m then r else cri cfg (entAt es q).off) s.status
      | none => exhaustState cfg es s.status := by
  obtain ⟨m', hm', hoff', hparse⟩ := parse_restart hwf hr s
  have hmm : m' = m := wf_off_inj hwf hm' hm (by rw [hoff, hoff'])
  subst hmm
  cases fuel with
  | zero => omega
  | succ f =>
    simp only [Iter.scanWhile, hparse]
    rw [hstop _ (entAt_mem es hm') r s.status]
    by_cases hse : stopE (entAt es m') = true
    · rw [hse]
      rw [findFrom_step es stopE hm', if_pos hse]
      simp
    · have hse' : stopE (entAt es m') = false := by
        revert hse; cases stopE (entAt es m') <;> simp
      rw [hse']
      have hrig : RIgood cfg es r m' := by
        refine ⟨hr, le_of_eq hoff.symm, fun h1 => ?_⟩
        have := hwf.restartMono r (r + 1) (by omega) h1
        omega
      have hrec := scan_spec hwf stop stopE hstop f m' r s.status hm' hrig (by omega)
      rw [if_pos (show ((true && !false) = true) from rfl)]
      rw [hrec]
      rw [findFrom_step es stopE hm', hse']
      rw [if_neg (show ¬ (false = true) by decide)]
      cases hfq : findFrom es stopE (m' + 1) with
      | none => rfl
      | some q =>
        have hq := (findFrom_some es stopE hfq).1
        simp only [hfq]
        rw [if_neg (show ¬ (q = m') by omega)]

/-- `NextEntryOffset` on a state parked at a block entry. -/
theorem NextEntryOffset_mem {cfg : BlockCfg} {es : List Entry} (hwf : WFBlock cfg es)
    {e : Entry} (he : e ∈ es) (ri : Nat) (st : Status) :
    Iter.NextEntryOffset cfg (entryState e ri st) = entryEnd e := by
  obtain ⟨j, hj, rfl⟩ := List.mem_iff_getElem.mp he
  rw [← entAt_eq_getElem es hj]
  exact NextEntryOffset_entryState hwf hj ri st

/-- `SeekToFirst` lands on entry 0 with region index 0, preserving the
status. -/
theorem seekToFirst_spec {cfg : BlockCfg} {es : List Entry} (hwf : WFBlock cfg es)
    (s : IterState) :
    Iter.SeekToFirst cfg s = entryState (entAt es 0) 0 s.status := by
  obtain ⟨m, hm, hoff, hparse⟩ := parse_restart hwf hwf.numPos s
  have hm0 : m = 0 :=
    wf_off_inj hwf hm (wf_n_pos hwf) (by rw [hoff, wf_restart_zero_entry hwf])
  subst hm0
  unfold Iter.SeekToFirst
  rw [hparse]

/-- `Next` from entry `j` lands on entry `j+1` with the canonical region
index. -/
theorem next_spec_step {cfg : BlockCfg} {es : List Entry} (hwf : WFBlock cfg es)
    {j : Nat} (hj1 : j + 1 < es.length) {ri : Nat} (hri : RIgood cfg es ri j)
    (st : Status) :
    Iter.Next cfg (entryState (entAt es j) ri st) =
      entryState (entAt es (j + 1)) (cri cfg (entAt es (j + 1)).off) st := by
  unfold Iter.Next
  rw [parse_entry_step hwf hj1 ri st]
  rw [adv_from_RIgood hwf hri hj1]

/-- `Next` from the last entry leaves the exhausted state. -/
theorem next_spec_end {cfg : BlockCfg} {es : List Entry} (hwf : WFBlock cfg es)
    {j : Nat} (hj : j + 1 = es.length) (ri : Nat) (st : Status) :
    Iter.Next cfg (entryState (entAt es j) ri st) = exhaustState cfg es st := by
  unfold Iter.Next
  rw [parse_entry_end hwf hj ri st]

/-- A canonical entry state is valid. -/
theorem valid_entryState {cfg : BlockCfg} {es : List Entry} (hwf : WFBlock cfg es)
    {j : Nat} (hj : j < es.length) (ri : Nat) (st : Status) :
    Iter.Valid cfg (entryState (entAt es j) ri st) = true := by
  simp only [Iter.Valid, entryState, decide_eq_true_eq]
  exact (chain_bounds hwf.chain hj).1

/-- The exhausted state is invalid. -/
theorem not_valid_exhaustState (cfg : BlockCfg) (es : List Entry) (st : Status) :
    Iter.Valid cfg (exhaustState cfg es st) = false := by
  simp [Iter.Valid, exhaustState]

/-- Repeated `Next` from entry `j` observes exactly the keys of the
remaining entries. -/
theorem collectNext_spec {cfg : BlockCfg} {es : List Entry} (hwf : WFBlock cfg es) :
    ∀ fuel j ri st, j < es.length → RIgood cfg es ri j → es.length - j < fuel →
      collectNext cfg fuel (entryState (entAt es j) ri st) =
        (es.drop j).map (fun e => e.key) := by
  intro fuel
  induction fuel with
  | zero => intro j ri st hj _ hf; omega
  | succ f ih =>
    intro j ri st hj hri hf
    have hvalid := valid_entryState hwf hj ri st
    simp only [collectNext, hvalid, if_true]
    by_cases hj1 : j + 1 < es.length
    · rw [next_spec_step hwf hj1 hri st]
      rw [ih (j + 1) _ st hj1 (RIgood_cri hwf hj1) (by omega)]
      rw [List.drop_eq_getElem_cons hj, List.map_cons]
      rw [entAt_eq_getElem es hj]
      rfl
    · have hj1' : j + 1 = es.length := by omega
      rw [next_spec_end hwf hj1' ri st]
      have hrest : collectNext cfg f (exhaustState cfg es st) = [] := by
        cases f with
        | zero => rfl
        | succ f' => simp [collectNext, not_valid_exhaustState]
      rw [hrest]
      rw [List.drop_eq_getElem_cons hj]
      have hnil : es.drop (j + 1) = [] := by
        apply List.drop_eq_nil_of_le
        omega
      rw [hnil]
      simp [entAt_eq_getElem es hj, entryState]

/-- The region-index invariant holds at entry 0 with region index 0. -/
theorem RIgood_zero {cfg : BlockCfg} {es : List Entry} (hwf : WFBlock cfg es) :
    RIgood cfg es 0 0 := by
  refine ⟨hwf.numPos, le_of_eq (wf_restart_zero_entry hwf).symm, fun _ => ?_⟩
  rw [wf_off_zero hwf]
  omega

/-- The full forward traversal observes exactly the block's keys in order. -/
theorem forwardKeys_spec {cfg : BlockCfg} {es : List Entry} (hwf : WFBlock cfg es) :
    forwardKeys cfg = es.map (fun e => e.key) := by
  unfold forwardKeys
  rw [seekToFirst_spec hwf (initState cfg)]
  rw [collectNext_spec hwf (Iter.seekFuel cfg) 0 0 (initState cfg).status (wf_n_pos hwf)
    (RIgood_zero hwf) (by have := wf_len_le hwf; simp only [Iter.seekFuel]; omega)]
  simp

/-- Below a positive offset there is always a restart point (restart 0 is at
offset 0), so the canonical region index's restart point lies strictly
before the offset. -/
theorem cri_lt_of_pos {cfg : BlockCfg} {es : List Entry} (hwf : WFBlock cfg es)
    (x : Nat) (hx : 0 < x) : Iter.GetRestartPoint cfg (cri cfg x) < x := by
  unfold cri
  have hp : Iter.GetRestartPoint cfg 0 < x := by rw [hwf.restartZero]; omega
  exact Nat.findGreatest_spec (P := fun i => Iter.GetRestartPoint cfg i < x)
    (m := 0) (n := cfg.numRestarts - 1) (Nat.zero_le _) hp

/-- The stop condition of `SeekToLast`, at the entry level. -/
theorem stopLast_hyp {cfg : BlockCfg} {es : List Entry} (hwf : WFBlock cfg es) :
    ∀ e ∈ es, ∀ ri st,
      decide (cfg.restarts ≤ Iter.NextEntryOffset cfg (entryState e ri st)) =
        decide (cfg.restarts ≤ entryEnd e) := by
  intro e he ri st
  rw [NextEntryOffset_mem hwf he ri st]

/-- `SeekToLast` lands on the final entry with a well-placed region index,
preserving the status. -/
theorem seekToLast_spec {cfg : BlockCfg} {es : List Entry} (hwf : WFBlock cfg es)
    (s : IterState) :
    ∃ ri', RIgood cfg es ri' (es.length - 1) ∧
      Iter.SeekToLast cfg s = entryState (entAt es (es.length - 1)) ri' s.status := by
  have hnpos := wf_n_pos hwf
  have hr : cfg.numRestarts - 1 < cfg.numRestarts := by have := hwf.numPos; omega
  obtain ⟨m, hm, hoff⟩ := wf_restart_entry hwf hr
  have hscan := scan_restart_spec hwf
    (fun t => decide (cfg.restarts ≤ Iter.NextEntryOffset cfg t))
    (fun e => decide (cfg.restarts ≤ entryEnd e))
    (fun e he ri st => stopLast_hyp hwf e he ri st) hr hm hoff s
    (show es.length + 1 - m ≤ Iter.seekFuel cfg by
      have := wf_len_le hwf; simp only [Iter.seekFuel]; omega)
  have hfalse : ∀ i, m ≤ i → i < es.length - 1 →
      (fun e => decide (cfg.restarts ≤ entryEnd e)) (entAt es i) = false := by
    intro i hi1 hi2
    have hadj := chain_adj hwf.chain (show i + 1 < es.length by omega)
    have hb := (chain_bounds hwf.chain (show i + 1 < es.length by omega)).1
    simp only [decide_eq_false_iff_not]
    omega
  have hlaststop : (fun e => decide (cfg.restarts ≤ entryEnd e))
      (entAt es (es.length - 1)) = true := by
    have hl := chain_last_end hwf.chain hwf.ne
    simp only [decide_eq_true_eq]
    omega
  have hfind : findFrom es (fun e => decide (cfg.restarts ≤ entryEnd e)) m =
      some (es.length - 1) := by
    rw [findFrom_congr es _ (show m ≤ es.length - 1 by omega) hfalse]
    rw [findFrom_step es _ (show es.length - 1 < es.length by omega)]
    rw [if_pos hlaststop]
  unfold Iter.SeekToLast
  rw [hscan]
  simp only [hfind]
  by_cases hqm : es.length - 1 = m
  · rw [if_pos hqm]
    refine ⟨cfg.numRestarts - 1, ⟨hr, ?_, fun h1 => by omega⟩, rfl⟩
    rw [hqm, hoff]
  · rw [if_neg hqm]
    exact ⟨cri cfg (entAt es (es.length - 1)).off,
      RIgood_cri hwf (by omega), rfl⟩

/-- `prevLoop` returns as soon as the restart point lies before the
original offset. -/
theorem prevLoop_hit (cfg : BlockCfg) (orig ri : Nat)
    (h : ¬ orig ≤ Iter.GetRestartPoint cfg ri) :
    Iter.prevLoop cfg orig ri = some ri := by
  cases ri with
  | zero => simp [Iter.prevLoop, h]
  | succ r => simp [Iter.prevLoop, h]

/-- From original offset 0 the backward search always falls off the front. -/
theorem prevLoop_zero_orig (cfg : BlockCfg) : ∀ ri, Iter.prevLoop cfg 0 ri = none := by
  intro ri
  induction ri with
  | zero => simp [Iter.prevLoop]
  | succ r ih => simp [Iter.prevLoop, ih]

/-- From a well-placed region index on entry `j ≥ 1`, the backward search
finds exactly the last restart point before the entry. -/
theorem prevLoop_found {cfg : BlockCfg} {es : List Entry} (hwf : WFBlock cfg es)
    {ri j : Nat} (hri : RIgood cfg es ri j) (hj : j < es.length) (hj0 : 0 < j) :
    Iter.prevLoop cfg (entAt es j).off ri = some (cri cfg (entAt es j).off) := by
  have hoffpos : 0 < (entAt es j).off := wf_off_pos hwf hj hj0
  rcases Nat.lt_or_ge (Iter.GetRestartPoint cfg ri) (entAt es j).off with hlt | hge
  · rw [prevLoop_hit cfg _ ri (by omega)]
    exact congrArg some (cri_eq_of hwf hri.1 hlt (fun h => hri.2.2 h)).symm
  · have heq : Iter.GetRestartPoint cfg ri = (entAt es j).off :=
      le_antisymm hri.2.1 hge
    have hri1 : 1 ≤ ri := by
      by_contra hc
      have hri0 : ri = 0 := by omega
      rw [hri0, hwf.restartZero] at heq
      omega
    obtain ⟨r, rfl⟩ : ∃ r, ri = r + 1 := ⟨ri - 1, by omega⟩
    simp only [Iter.prevLoop]
    rw [if_pos (le_of_eq heq.symm)]
    have hmono := hwf.restartMono r (r + 1) (by omega) hri.1
    rw [prevLoop_hit cfg _ r (by omega)]
    refine congrArg some ?_
    symm
    apply cri_eq_of hwf (show r < cfg.numRestarts by have := hri.1; omega) (by omega)
    intro _
    exact le_of_eq heq.symm
/-- `Prev` from entry 0 has no predecessor: parked invalid with stale key
and value. -/
theorem prev_spec_zero {cfg : BlockCfg} {es : List Entry} (hwf : WFBlock cfg es)
    (ri : Nat) (st : Status) :
    Iter.Prev cfg (entryState (entAt es 0) ri st) =
      { entryState (entAt es 0) ri st with
          current := cfg.restarts, restartIndex := cfg.numRestarts } := by
  have hpl : Iter.prevLoop cfg (entAt es 0).off ri = none := by
    rw [wf_off_zero hwf]
    exact prevLoop_zero_orig cfg ri
  simp only [Iter.Prev, entryState, hpl]

/-- The stop condition of `Prev`'s forward scan, at the entry level. -/
theorem prev_stop_hyp {cfg : BlockCfg} {es : List Entry} (hwf : WFBlock cfg es)
    (x : Nat) : ∀ e ∈ es, ∀ ri st,
      decide (x ≤ Iter.NextEntryOffset cfg (entryState e ri st)) =
        decide (x ≤ entryEnd e) := by
  intro e he ri st
  rw [NextEntryOffset_mem hwf he ri st]

/-- `Prev` from entry `j ≥ 1` lands on entry `j-1` with a well-placed
region index, preserving the status. -/
theorem prev_spec_pos {cfg : BlockCfg} {es : List Entry} (hwf : WFBlock cfg es)
    {j ri : Nat} (hj : j < es.length) (hj0 : 0 < j) (hri : RIgood cfg es ri j)
    (st : Status) :
    ∃ ri', RIgood cfg es ri' (j - 1) ∧
      Iter.Prev cfg (entryState (entAt es j) ri st) =
        entryState (entAt es (j - 1)) ri' st := by
  have hpl := prevLoop_found hwf hri hj hj0
  have hilt : cri cfg (entAt es j).off < cfg.numRestarts := cri_lt_num hwf _
  have hoffpos : 0 < (entAt es j).off := wf_off_pos hwf hj hj0
  have hilt2 : Iter.GetRestartPoint cfg (cri cfg (entAt es j).off) < (entAt es j).off :=
    cri_lt_of_pos hwf _ hoffpos
  obtain ⟨m, hm, hoffm⟩ := wf_restart_entry hwf hilt
  have hmj : m < j := by
    by_contra hc
    push_neg at hc
    rcases eq_or_lt_of_le hc with heq2 | hlt2
    · rw [← heq2] at hoffm
      omega
    · have := chain_off_mono hwf.chain j m hlt2 hm
      omega
  have hscan := scan_restart_spec hwf
    (fun t => decide ((entAt es j).off ≤ Iter.NextEntryOffset cfg t))
    (fun e => decide ((entAt es j).off ≤ entryEnd e))
    (fun e he ri' st' => prev_stop_hyp hwf _ e he ri' st') hilt hm hoffm
    (entryState (entAt es j) ri st)
    (show es.length + 1 - m ≤ Iter.seekFuel cfg by
      have := wf_len_le hwf; simp only [Iter.seekFuel]; omega)
  have hfalse : ∀ i, m ≤ i → i < j - 1 →
      (fun e => decide ((entAt es j).off ≤ entryEnd e)) (entAt es i) = false := by
    intro i hi1 hi2
    have hadj := chain_adj hwf.chain (show i + 1 < es.length by omega)
    have hmono := chain_off_mono hwf.chain (i + 1) j (by omega) hj
    simp only [decide_eq_false_iff_not]
    omega
  have hstopj : (fun e => decide ((entAt es j).off ≤ entryEnd e)) (entAt es (j - 1)) = true := by
    have hadj := chain_adj hwf.chain (show (j - 1) + 1 < es.length by omega)
    rw [show j - 1 + 1 = j by omega] at hadj
    simp only [decide_eq_true_eq]
    omega
  have hfind : findFrom es (fun e => decide ((entAt es j).off ≤ entryEnd e)) m =
      some (j - 1) := by
    rw [findFrom_congr es _ (show m ≤ j - 1 by omega) hfalse]
    rw [findFrom_step es _ (show j - 1 < es.length by omega)]
    rw [if_pos hstopj]
  have hprev : Iter.Prev cfg (entryState (entAt es j) ri st) =
      Iter.scanWhile cfg (fun t => decide ((entAt es j).off ≤ Iter.NextEntryOffset cfg t))
        (Iter.seekFuel cfg)
        (Iter.SeekToRestartPoint cfg (cri cfg (entAt es j).off)
          (entryState (entAt es j) ri st)) := by
    simp only [Iter.Prev, entryState, hpl]
  rw [hprev, hscan]
  simp only [hfind]
  by_cases hqm : j - 1 = m
  · rw [if_pos hqm]
    refine ⟨cri cfg (entAt es j).off, ⟨hilt, ?_, fun h1 => ?_⟩, rfl⟩
    · rw [hqm]; exact le_of_eq hoffm.symm
    · have := cri_next hwf (entAt es j).off h1
      have hmono2 := chain_off_mono hwf.chain (j - 1) j (by omega) hj
      omega
  · rw [if_neg hqm]
    exact ⟨cri cfg (entAt es (j - 1)).off, RIgood_cri hwf (by omega), rfl⟩

/-- Repeated `Prev` from entry `j` observes exactly the keys of entries
`j, j-1, …, 0`. -/
theorem collectPrev_spec {cfg : BlockCfg} {es : List Entry} (hwf : WFBlock cfg es) :
    ∀ fuel j ri st, j < es.length → RIgood cfg es ri j → j + 2 ≤ fuel →
      collectPrev cfg fuel (entryState (entAt es j) ri st) =
        ((es.take (j + 1)).map (fun e => e.key)).reverse := by
  intro fuel
  induction fuel with
  | zero => intro j ri st _ _ hf; omega
  | succ f ih =>
    intro j ri st hj hri hf
    have hvalid := valid_entryState hwf hj ri st
    simp only [collectPrev, hvalid, if_true]
    by_cases hj0 : 0 < j
    · obtain ⟨ri', hri', hprev⟩ := prev_spec_pos hwf hj hj0 hri st
      rw [hprev, ih (j - 1) ri' st (by omega) hri' (by omega)]
      rw [show j - 1 + 1 = j by omega]
      rw [List.take_succ, List.getElem?_eq_getElem hj,
        show (some es[j]).toList = [es[j]] from rfl]
      rw [List.map_append, List.reverse_append]
      rw [entAt_eq_getElem es hj]
      simp [entryState]
    · have hj0' : j = 0 := by omega
      subst hj0'
      rw [prev_spec_zero hwf ri st]
      have hinv : Iter.Valid cfg
          ({ entryState (entAt es 0) ri st with
              current := cfg.restarts, restartIndex := cfg.numRestarts }) = false := by
        simp [Iter.Valid]
      have hrest : collectPrev cfg f
          ({ entryState (entAt es 0) ri st with
              current := cfg.restarts, restartIndex := cfg.numRestarts }) = [] := by
        cases f with
        | zero => rfl
        | succ f' => simp [collectPrev, hinv]
      rw [hrest]
      rw [List.take_succ, List.getElem?_eq_getElem hj,
        show (some es[0]).toList = [es[0]] from rfl]
      rw [List.map_append, List.reverse_append]
      rw [entAt_eq_getElem es hj]
      simp [entryState]

/-- The full backward traversal observes exactly the reversed key list. -/
theorem backwardKeys_spec {cfg : BlockCfg} {es : List Entry} (hwf : WFBlock cfg es) :
    backwardKeys cfg = (es.map (fun e => e.key)).reverse := by
  unfold backwardKeys
  obtain ⟨ri', hri', hlast⟩ := seekToLast_spec hwf (initState cfg)
  rw [hlast]
  rw [collectPrev_spec hwf (Iter.seekFuel cfg) (es.length - 1) ri' (initState cfg).status
    (by have := wf_n_pos hwf; omega) hri'
    (by have := wf_len_le hwf; have := wf_n_pos hwf; simp only [Iter.seekFuel]; omega)]
  rw [show es.length - 1 + 1 = es.length from by have := wf_n_pos hwf; omega]
  rw [List.take_length]

/-- C2: on every well-formed block the forward traversal (`SeekToFirst`
then `Next` until invalid) observes the block's keys, strictly ascending in
the comparator order, and the backward traversal (`SeekToLast` then `Prev`
until invalid) observes exactly the reverse of that sequence. -/
theorem c2_traversal (cfg : BlockCfg) (es : List Entry) (hwf : WFBlock cfg es) :
    forwardKeys cfg = es.map (fun e => e.key) ∧
    List.Pairwise (fun a b => cfg.cmp a b < 0) (forwardKeys cfg) ∧
    backwardKeys cfg = (forwardKeys cfg).reverse := by
  have hf := forwardKeys_spec hwf
  refine ⟨hf, ?_, ?_⟩
  · rw [hf]
    exact hwf.sorted.map _ (fun a b h => h)
  · rw [backwardKeys_spec hwf, hf]

/-- The worked example block is well formed. -/
theorem wfEx : WFBlock cfgEx esEx := by
  refine ⟨bytewiseCmp_laws, by decide, by decide, by decide,
    checkChain_sound _ _ _ _ _ (by decide), by decide, by decide, by decide,
    ?_, by decide, ?_⟩
  · intro i j hij hj
    have hj2 : j < 2 := hj
    interval_cases j
    · omega
    · have hi0 : i = 0 := by omega
      subst hi0
      decide
  · intro i hi
    have hi2 : i < 2 := hi
    interval_cases i
    · exact ⟨1, 1, 3, by decide⟩
    · exact ⟨1, 1, 13, by decide⟩

/-- Witness for C2 on the worked example block. -/
theorem c2_witness :
    forwardKeys cfgEx = esEx.map (fun e => e.key) ∧
    List.Pairwise (fun a b => cfgEx.cmp a b < 0) (forwardKeys cfgEx) ∧
    backwardKeys cfgEx = (forwardKeys cfgEx).reverse :=
  c2_traversal cfgEx esEx wfEx

/-- C8 (amended): a freshly constructed live iterator is Invalid with an
ok status, empty key, and a value that holds no position inside the block
(the default slice does not reference the buffer, so no forward-parse
position is defined); the first positioning call must establish the
position, and `SeekToFirst` then parses from restart point 0 and yields the
block's first entry. -/
theorem c8_init_state (cfg : BlockCfg) :
    Iter.Valid cfg (initState cfg) = false ∧
    (initState cfg).key = [] ∧ (initState cfg).value = none ∧
    (initState cfg).status = Status.ok ∧
    (∀ es, WFBlock cfg es →
      Iter.SeekToFirst cfg (initState cfg) = entryState (entAt es 0) 0 Status.ok) := by
  refine ⟨by simp [Iter.Valid, initState], rfl, rfl, rfl, ?_⟩
  intro es hwf
  exact seekToFirst_spec hwf (initState cfg)

/-- Counterexample to C8 as stated: on the one-entry block `dataC8`, the
freshly constructed iterator's value is the default slice, not a zero-length
placeholder at restart point 0's offset — the constructor performs no
positioning. -/
theorem c8_counterexample :
    ¬ ((initState cfgC8).value = some (Iter.GetRestartPoint cfgC8 0, 0)) := by
  decide

/-- The one-entry block `dataC8` is well formed. -/
theorem wfC8 : WFBlock cfgC8 esC8 := by
  refine ⟨bytewiseCmp_laws, by decide, by decide, by decide,
    checkChain_sound _ _ _ _ _ (by decide), by decide, by decide, by decide,
    ?_, by decide, ?_⟩
  · intro i j hij hj
    have hj1 : j < 1 := hj
    interval_cases j
    omega
  · intro i hi
    have hi1 : i < 1 := hi
    interval_cases i
    exact ⟨1, 1, 3, by decide⟩

/-- Witness for C8 on the one-entry block. -/
theorem c8_witness :
    Iter.Valid cfgC8 (initState cfgC8) = false ∧
    (initState cfgC8).value = none ∧
    Iter.SeekToFirst cfgC8 (initState cfgC8) = entryState (entAt esC8 0) 0 Status.ok :=
  ⟨(c8_init_state cfgC8).1, (c8_init_state cfgC8).2.2.1,
    (c8_init_state cfgC8).2.2.2.2 esC8 wfC8⟩

/-! ### The restart-point binary search of Seek -/

/-- The canonical region index of offset 0 is 0. -/
theorem cri_zero (cfg : BlockCfg) : cri cfg 0 = 0 := by
  unfold cri
  apply Nat.findGreatest_eq_zero_iff.mpr
  intro n _ _ hn
  omega

/-- Decoding at a restart point succeeds with zero shared length, and the
non-shared bytes are exactly the restart entry's full key. -/
theorem restart_decode {cfg : BlockCfg} {es : List Entry} (hwf : WFBlock cfg es)
    {i : Nat} (hi : i < cfg.numRestarts) :
    ∃ m nsh vl p, m < es.length ∧ (entAt es m).off = Iter.GetRestartPoint cfg i ∧
      DecodeEntry cfg.data (Iter.GetRestartPoint cfg i) cfg.restarts =
        some (0, nsh, vl, p) ∧
      listSlice cfg.data p nsh = (entAt es m).key := by
  obtain ⟨m, hm, hoff⟩ := wf_restart_entry hwf hi
  obtain ⟨sh, nsh, vl, p, hde, hsh, hkey, _, _, _, _, _⟩ := chain_main hwf.chain m hm
  obtain ⟨nsh', vl', p', hde0⟩ := hwf.restartShared i hi
  rw [← hoff] at hde0
  have hinj := hde.symm.trans hde0
  simp only [Option.some.injEq, Prod.mk.injEq] at hinj
  obtain ⟨hsh0, hnsh, hvl, hp⟩ := hinj
  subst hsh0; subst hnsh; subst hvl; subst hp
  rw [hoff] at hde
  refine ⟨m, nsh, vl, p, hm, hoff, hde, ?_⟩
  rw [hkey]
  simp

/-- `restartKeyLt` at restart point `i`, read off the restart entry `m`. -/
theorem restartKeyLt_iff {cfg : BlockCfg} {es : List Entry} (hwf : WFBlock cfg es)
    (target : List Nat) {i m : Nat} (hm : m < es.length)
    (hoff : (entAt es m).off = Iter.GetRestartPoint cfg i) :
    restartKeyLt cfg es target i ↔ cfg.cmp (entAt es m).key target < 0 := by
  constructor
  · rintro ⟨m', hm', hoff', hlt⟩
    have heq : m' = m := wf_off_inj hwf hm' hm (by rw [hoff, hoff'])
    subst heq
    exact hlt
  · intro h
    exact ⟨m, hm, hoff, h⟩

/-- `restartKeyLt` is downward closed along the restart indices. -/
theorem restartKeyLt_mono {cfg : BlockCfg} {es : List Entry} (hwf : WFBlock cfg es)
    (target : List Nat) {i i' : Nat} (hii : i ≤ i') (hi' : i' < cfg.numRestarts)
    (h : restartKeyLt cfg es target i') : restartKeyLt cfg es target i := by
  obtain ⟨m', hm', hoff', hlt'⟩ := h
  obtain ⟨m, hm, hoff⟩ := wf_restart_entry hwf (show i < cfg.numRestarts by omega)
  rcases Nat.eq_or_lt_of_le hii with rfl | hlt
  · have heq : m = m' := wf_off_inj hwf hm hm' (by rw [hoff, hoff'])
    subst heq
    exact ⟨m, hm, hoff, hlt'⟩
  · have hoffo : Iter.GetRestartPoint cfg i < Iter.GetRestartPoint cfg i' :=
      hwf.restartMono i i' hlt hi'
    have h1 : (entAt es m).off < (entAt es m').off := by rw [hoff, hoff']; exact hoffo
    have hmm : m < m' := by
      by_contra hge
      have hle : m' ≤ m := Nat.le_of_not_lt hge
      rcases Nat.eq_or_lt_of_le hle with heq | hlt2
      · subst heq; omega
      · have := chain_off_mono hwf.chain m' m hlt2 hm
        omega
    have hkeys : cfg.cmp (entAt es m).key (entAt es m').key < 0 :=
      wf_sorted_lt hwf hmm hm'
    exact ⟨m, hm, hoff, hwf.laws.lt_trans hkeys hlt'⟩

/-- The binary search over restart points: started on an interval whose
left end is 0 or has its restart key below the target and whose strict
upper side has no restart key below the target, it returns the greatest
restart index whose key is below the target (0 when there is none). -/
theorem seekBinaryLoop_spec {cfg : BlockCfg} {es : List Entry} (hwf : WFBlock cfg es)
    (target : List Nat) :
    ∀ fuel lo hi, hi < cfg.numRestarts → hi - lo < fuel → lo ≤ hi →
      (lo = 0 ∨ restartKeyLt cfg es target lo) →
      (∀ i, hi < i → i < cfg.numRestarts → ¬ restartKeyLt cfg es target i) →
      ∃ L, Iter.seekBinaryLoop cfg target fuel lo hi = some L ∧ lo ≤ L ∧ L ≤ hi ∧
        (L = 0 ∨ restartKeyLt cfg es target L) ∧
        (∀ i, L < i → i < cfg.numRestarts → ¬ restartKeyLt cfg es target i) := by
  intro fuel
  induction fuel with
  | zero => intro lo hi _ hf _ _ _; omega
  | succ f ih =>
    intro lo hi hhi hf hlh hlow hupp
    by_cases hlt : lo < hi
    · have hmid1 : lo < (lo + hi + 1) / 2 := by omega
      have hmid2 : (lo + hi + 1) / 2 ≤ hi := by omega
      obtain ⟨m, nsh, vl, p, hm, hoffm, hde, hslice⟩ :=
        restart_decode hwf (show (lo + hi + 1) / 2 < cfg.numRestarts by omega)
      simp only [Iter.seekBinaryLoop, hde]
      rw [if_pos hlt]
      rw [if_neg (by decide : ¬ ((0 : Nat) ≠ 0))]
      rw [hslice]
      by_cases hc : cfg.cmp (entAt es m).key target < 0
      · rw [if_pos hc]
        obtain ⟨L, hLeq, hL1, hL2, hL3, hL4⟩ :=
          ih ((lo + hi + 1) / 2) hi hhi (by omega) (by omega)
            (Or.inr ⟨m, hm, hoffm, hc⟩) hupp
        exact ⟨L, hLeq, by omega, hL2, hL3, hL4⟩
      · rw [if_neg hc]
        obtain ⟨L, hLeq, hL1, hL2, hL3, hL4⟩ :=
          ih lo ((lo + hi + 1) / 2 - 1) (by omega) (by omega) (by omega) hlow
            (by
              intro i h1 h2 hkl
              rcases le_or_lt i hi with hle | hgt
              · have hmono := restartKeyLt_mono hwf target
                  (show (lo + hi + 1) / 2 ≤ i by omega) h2 hkl
                rw [restartKeyLt_iff hwf target hm hoffm] at hmono
                exact hc hmono
              · exact hupp i hgt h2 hkl)
        exact ⟨L, hLeq, hL1, by omega, hL3, hL4⟩
    · simp only [Iter.seekBinaryLoop]
      rw [if_neg hlt]
      exact ⟨lo, rfl, le_rfl, hlh, hlow, fun i h1 h2 => hupp i (by omega) h2⟩

/-- The linear phase of `Seek` launched from restart point `L` (chosen so
that `L` is 0 or has its key below the target) lands exactly on the
specified `seekResult`. -/
theorem seek_scan_from_L {cfg : BlockCfg} {es : List Entry} (hwf : WFBlock cfg es)
    (target : List Nat) {L : Nat} (hL : L < cfg.numRestarts)
    (hLlt : L = 0 ∨ restartKeyLt cfg es target L) (s : IterState) :
    Iter.scanWhile cfg (fun t => decide (0 ≤ cfg.cmp t.key target)) (Iter.seekFuel cfg)
      (Iter.SeekToRestartPoint cfg L s) = seekResult cfg es target s.status := by
  obtain ⟨m, hm, hoffm⟩ := wf_restart_entry hwf hL
  have hscan := scan_restart_spec hwf
    (fun t => decide (0 ≤ cfg.cmp t.key target))
    (fun e => decide (0 ≤ cfg.cmp e.key target))
    (fun e he ri st => rfl) hL hm hoffm s
    (show es.length + 1 - m ≤ Iter.seekFuel cfg by
      have := wf_len_le hwf; simp only [Iter.seekFuel]; omega)
  have hbelow : ∀ i, i < m → cfg.cmp (entAt es i).key target < 0 := by
    intro i hi
    rcases hLlt with hL0 | hklt
    · have hm0 : m = 0 := wf_off_inj hwf hm (wf_n_pos hwf)
        (by rw [hoffm, hL0, ← wf_restart_zero_entry hwf])
      omega
    · have hckm : cfg.cmp (entAt es m).key target < 0 :=
        (restartKeyLt_iff hwf target hm hoffm).mp hklt
      exact hwf.laws.lt_trans (wf_sorted_lt hwf hi hm) hckm
  have hcongr : lowerBoundIdx cfg es target =
      findFrom es (fun e => decide (0 ≤ cfg.cmp e.key target)) m := by
    unfold lowerBoundIdx
    refine findFrom_congr es _ (Nat.zero_le m) (fun i _ hi2 => ?_)
    simp only [decide_eq_false_iff_not, not_le]
    exact hbelow i hi2
  rw [hscan]
  unfold seekResult
  rw [hcongr]
  cases hfq : findFrom es (fun e => decide (0 ≤ cfg.cmp e.key target)) m with
  | none => rfl
  | some q =>
    obtain ⟨hq1, hq2, hq3, _⟩ := findFrom_some es _ hfq
    simp only [hfq]
    by_cases hqm : q = m
    · subst hqm
      rw [if_pos rfl]
      have h0le : 0 ≤ cfg.cmp (entAt es q).key target := by simpa using hq3
      have hL0 : L = 0 := by
        rcases hLlt with h | hklt
        · exact h
        · exfalso
          have := (restartKeyLt_iff hwf target hm hoffm).mp hklt
          omega
      subst hL0
      have hm0 : q = 0 := wf_off_inj hwf hm (wf_n_pos hwf)
        (by rw [hoffm, ← wf_restart_zero_entry hwf])
      subst hm0
      rw [wf_off_zero hwf, cri_zero]
    · rw [if_neg hqm]

/-- The linear phase of `Seek` launched in place from entry `j` (whose key
is below the target — the skip case) lands exactly on the specified
`seekResult`. -/
theorem seek_scan_skip {cfg : BlockCfg} {es : List Entry} (hwf : WFBlock cfg es)
    (target : List Nat) {j ri : Nat} (hj : j < es.length) (hri : RIgood cfg es ri j)
    (hlt : cfg.cmp (entAt es j).key target < 0) (st : Status) :
    Iter.scanWhile cfg (fun t => decide (0 ≤ cfg.cmp t.key target)) (Iter.seekFuel cfg)
      (entryState (entAt es j) ri st) = seekResult cfg es target st := by
  have hscan := scan_spec hwf
    (fun t => decide (0 ≤ cfg.cmp t.key target))
    (fun e => decide (0 ≤ cfg.cmp e.key target))
    (fun e he ri st => rfl) (Iter.seekFuel cfg) j ri st hj hri
    (by have := wf_len_le hwf; simp only [Iter.seekFuel]; omega)
  have hbelow : ∀ i, i < j + 1 → cfg.cmp (entAt es i).key target < 0 := by
    intro i hi
    rcases Nat.eq_or_lt_of_le (show i ≤ j by omega) with rfl | hlt2
    · exact hlt
    · exact hwf.laws.lt_trans (wf_sorted_lt hwf hlt2 hj) hlt
  have hcongr : lowerBoundIdx cfg es target =
      findFrom es (fun e => decide (0 ≤ cfg.cmp e.key target)) (j + 1) := by
    unfold lowerBoundIdx
    refine findFrom_congr es _ (Nat.zero_le (j + 1)) (fun i _ hi2 => ?_)
    simp only [decide_eq_false_iff_not, not_le]
    exact hbelow i hi2
  rw [hscan]
  unfold seekResult
  rw [hcongr]

/-- `seekResult` preserves the status it is given. -/
theorem seekResult_status (cfg : BlockCfg) (es : List Entry) (target : List Nat)
    (st : Status) : (seekResult cfg es target st).status = st := by
  unfold seekResult
  cases lowerBoundIdx cfg es target <;> rfl

/-- `seekResult` is a legitimate iterator state. -/
theorem seekResult_good {cfg : BlockCfg} {es : List Entry} (hwf : WFBlock cfg es)
    (target : List Nat) (st : Status) :
    GoodState cfg es (seekResult cfg es target st) := by
  unfold seekResult
  cases hfq : lowerBoundIdx cfg es target with
  | none => exact Or.inl ⟨rfl, rfl⟩
  | some q =>
    have hq := (findFrom_some es _ hfq).2.1
    exact Or.inr ⟨q, hq, RIgood_cri hwf hq, rfl⟩

/-- The master `Seek` lemma: from any legitimate state, `Seek` either
returns at once (when the iterator is valid and its key already compares
equal to the target) or ends in the specified `seekResult`, whichever
narrowing path it takes. -/
theorem seek_spec {cfg : BlockCfg} {es : List Entry} (hwf : WFBlock cfg es)
    (target : List Nat) (s0 : IterState) (hgood : GoodState cfg es s0) :
    Iter.Seek cfg target s0 =
      if Iter.Valid cfg s0 = true ∧ cfg.cmp s0.key target = 0 then s0
      else seekResult cfg es target s0.status := by
  have hnum := hwf.numPos
  rcases hgood with hinv | ⟨j, hj, hri, hseq⟩
  · have hv : Iter.Valid cfg s0 = false := by
      simp [Iter.Valid, hinv.1]
    rw [if_neg (show ¬ (Iter.Valid cfg s0 = true ∧ cfg.cmp s0.key target = 0) from
      fun h => by rw [hv] at h; exact Bool.noConfusion h.1)]
    rw [show Iter.Seek cfg target s0 =
        Iter.seekScan cfg target 0 (cfg.numRestarts - 1) 0 s0 from by
      unfold Iter.Seek; rw [hv]; rfl]
    obtain ⟨L, hLeq, hL1, hL2, hL3, hL4⟩ := seekBinaryLoop_spec hwf target
      (cfg.numRestarts - 1 - 0 + 1) 0 (cfg.numRestarts - 1)
      (by omega) (by omega) (by omega) (Or.inl rfl)
      (fun i h1 h2 _ => by omega)
    have hbin : Iter.seekBinary cfg target 0 (cfg.numRestarts - 1) = some L := by
      unfold Iter.seekBinary; exact hLeq
    simp only [Iter.seekScan, hbin]
    rw [if_neg (show ¬ (L = s0.restartIndex ∧ (0 : Int) < 0) from
      fun h => absurd h.2 (by omega))]
    exact seek_scan_from_L hwf target (by omega) hL3 s0
  · have hv : Iter.Valid cfg s0 = true := by
      rw [hseq]; exact valid_entryState hwf hj _ _
    have hkey : s0.key = (entAt es j).key := by rw [hseq]; rfl
    rw [show Iter.Seek cfg target s0 =
        (if cfg.cmp s0.key target < 0 then
          Iter.seekScan cfg target s0.restartIndex (cfg.numRestarts - 1)
            (cfg.cmp s0.key target) s0
        else if 0 < cfg.cmp s0.key target then
          Iter.seekScan cfg target 0 s0.restartIndex (cfg.cmp s0.key target) s0
        else s0) from by
      unfold Iter.Seek; rw [hv]; rfl]
    rcases lt_trichotomy (cfg.cmp s0.key target) 0 with hc | hc | hc
    · rw [if_pos hc]
      rw [if_neg (show ¬ (Iter.Valid cfg s0 = true ∧ cfg.cmp s0.key target = 0) from
        fun h => absurd h.2 (by omega))]
      have hcj : cfg.cmp (entAt es j).key target < 0 := by rw [← hkey]; exact hc
      obtain ⟨mr, hmr, hoffmr⟩ := wf_restart_entry hwf hri.1
      have hmrj : mr ≤ j := by
        by_contra hgt
        have h1 := chain_off_mono hwf.chain j mr (by omega) hmr
        have h2 := hri.2.1
        rw [← hoffmr] at h2
        omega
      have hkmr : cfg.cmp (entAt es mr).key target < 0 := by
        rcases Nat.eq_or_lt_of_le hmrj with rfl | hlt2
        · exact hcj
        · exact hwf.laws.lt_trans (wf_sorted_lt hwf hlt2 hj) hcj
      obtain ⟨L, hLeq, hL1, hL2, hL3, hL4⟩ := seekBinaryLoop_spec hwf target
        (cfg.numRestarts - 1 - s0.restartIndex + 1) s0.restartIndex (cfg.numRestarts - 1)
        (by omega) (by omega) (by have := hri.1; omega)
        (Or.inr ⟨mr, hmr, hoffmr, hkmr⟩)
        (fun i h1 h2 _ => by omega)
      have hbin : Iter.seekBinary cfg target s0.restartIndex (cfg.numRestarts - 1) =
          some L := by
        unfold Iter.seekBinary; exact hLeq
      simp only [Iter.seekScan, hbin]
      by_cases hLri : L = s0.restartIndex
      · rw [if_pos ⟨hLri, hc⟩]
        rw [hseq]
        exact seek_scan_skip hwf target hj hri hcj s0.status
      · rw [if_neg (show ¬ (L = s0.restartIndex ∧ cfg.cmp s0.key target < 0) from
          fun h => hLri h.1)]
        exact seek_scan_from_L hwf target (by omega) hL3 s0
    · rw [if_neg (show ¬ (cfg.cmp s0.key target < 0) by omega)]
      rw [if_neg (show ¬ ((0 : Int) < cfg.cmp s0.key target) by omega)]
      rw [if_pos ⟨hv, hc⟩]
    · rw [if_neg (show ¬ (cfg.cmp s0.key target < 0) by omega)]
      rw [if_pos hc]
      rw [if_neg (show ¬ (Iter.Valid cfg s0 = true ∧ cfg.cmp s0.key target = 0) from
        fun h => absurd h.2 (by omega))]
      have hcj : (0 : Int) < cfg.cmp (entAt es j).key target := by rw [← hkey]; exact hc
      have hupp : ∀ i, s0.restartIndex < i → i < cfg.numRestarts →
          ¬ restartKeyLt cfg es target i := by
        rintro i h1 h2 ⟨m', hm', hoffm', hltm'⟩
        have hr1n : s0.restartIndex + 1 < cfg.numRestarts := by omega
        have hoff1 : (entAt es j).off ≤ Iter.GetRestartPoint cfg (s0.restartIndex + 1) :=
          hri.2.2 hr1n
        have hoff2 : Iter.GetRestartPoint cfg (s0.restartIndex + 1) ≤
            Iter.GetRestartPoint cfg i := by
          rcases Nat.eq_or_lt_of_le (show s0.restartIndex + 1 ≤ i by omega) with rfl | hlt2
          · exact le_rfl
          · exact le_of_lt (hwf.restartMono _ i hlt2 h2)
        have hjm : j ≤ m' := by
          by_contra hgt
          have hmo := chain_off_mono hwf.chain m' j (by omega) hj
          rw [hoffm'] at hmo
          omega
        have hkeyle : cfg.cmp (entAt es j).key (entAt es m').key ≤ 0 := by
          rcases Nat.eq_or_lt_of_le hjm with rfl | hlt2
          · exact hwf.laws.refl_le _
          · exact le_of_lt (wf_sorted_lt hwf hlt2 hm')
        have := hwf.laws.lt_of_le_of_lt hkeyle hltm'
        omega
      obtain ⟨L, hLeq, hL1, hL2, hL3, hL4⟩ := seekBinaryLoop_spec hwf target
        (s0.restartIndex - 0 + 1) 0 s0.restartIndex hri.1 (by omega) (by omega)
        (Or.inl rfl) hupp
      have hbin : Iter.seekBinary cfg target 0 s0.restartIndex = some L := by
        unfold Iter.seekBinary; exact hLeq
      simp only [Iter.seekScan, hbin]
      rw [if_neg (show ¬ (L = s0.restartIndex ∧ cfg.cmp s0.key target < 0) from
        fun h => absurd h.2 (by omega))]
      exact seek_scan_from_L hwf target (by have := hri.1; omega) hL3 s0

/-- C1: for every well-formed block with entries sorted under the injected
comparator, from any legitimate iterator state, `Seek(target)` leaves the
iterator positioned on the first entry whose key is `≥ target` (valid, with
that entry's key and offset, status preserved; in particular on an entry
comparing equal to the target whenever one exists), and leaves it invalid
with the status preserved when every key in the block is below the
target. -/
theorem c1_seek_lower_bound (cfg : BlockCfg) (es : List Entry) (target : List Nat)
    (s0 : IterState) (hwf : WFBlock cfg es) (hgood : GoodState cfg es s0) :
    match lowerBoundIdx cfg es target with
    | some q =>
        Iter.Valid cfg (Iter.Seek cfg target s0) = true ∧
        (Iter.Seek cfg target s0).key = (entAt es q).key ∧
        (Iter.Seek cfg target s0).current = (entAt es q).off ∧
        (Iter.Seek cfg target s0).status = s0.status ∧
        0 ≤ cfg.cmp (entAt es q).key target ∧
        (∀ i, i < q → cfg.cmp (entAt es i).key target < 0) ∧
        (∀ i, i < es.length → cfg.cmp (entAt es i).key target = 0 →
          cfg.cmp (entAt es q).key target = 0)
    | none =>
        Iter.Valid cfg (Iter.Seek cfg target s0) = false ∧
        (Iter.Seek cfg target s0).status = s0.status ∧
        (∀ i, i < es.length → cfg.cmp (entAt es i).key target < 0) := by
  rw [seek_spec hwf target s0 hgood]
  by_cases hearly : Iter.Valid cfg s0 = true ∧ cfg.cmp s0.key target = 0
  · rw [if_pos hearly]
    rcases hgood with hinv | ⟨j, hj, hri, hseq⟩
    · exfalso
      have h1 := hearly.1
      rw [Iter.Valid] at h1
      simp [hinv.1] at h1
    · have hkey : s0.key = (entAt es j).key := by rw [hseq]; rfl
      have hcj : cfg.cmp (entAt es j).key target = 0 := by rw [← hkey]; exact hearly.2
      have hbelow : ∀ i, i < j → cfg.cmp (entAt es i).key target < 0 :=
        fun i hij => hwf.laws.lt_of_lt_of_le (wf_sorted_lt hwf hij hj) (le_of_eq hcj)
      have hlb : lowerBoundIdx cfg es target = some j := by
        unfold lowerBoundIdx
        rw [findFrom_congr es _ (Nat.zero_le j) (fun i _ hi2 => by
          simp only [decide_eq_false_iff_not, not_le]
          exact hbelow i hi2)]
        rw [findFrom_step es _ hj]
        rw [if_pos (by simp only [decide_eq_true_eq]; omega)]
      rw [hlb]
      exact ⟨hearly.1, hkey, by rw [hseq]; rfl, rfl, by omega, hbelow, fun i _ _ => hcj⟩
  · rw [if_neg hearly]
    unfold seekResult
    cases hfq : lowerBoundIdx cfg es target with
    | some q =>
      have hfq' : findFrom es (fun e => decide (0 ≤ cfg.cmp e.key target)) 0 = some q := hfq
      obtain ⟨_, hq2, hq3, hq4⟩ := findFrom_some es _ hfq'
      have h0le : 0 ≤ cfg.cmp (entAt es q).key target := of_decide_eq_true hq3
      refine ⟨valid_entryState hwf hq2 _ _, rfl, rfl, rfl, h0le, ?_, ?_⟩
      · intro i hi
        have hfa := hq4 i (Nat.zero_le i) hi
        simp only [decide_eq_false_iff_not, not_le] at hfa
        exact hfa
      · intro i hilen hieq
        have hqi : q ≤ i := by
          by_contra hgt
          have hfa := hq4 i (Nat.zero_le i) (by omega)
          simp only [decide_eq_false_iff_not, not_le] at hfa
          omega
        have hle : cfg.cmp (entAt es q).key (entAt es i).key ≤ 0 := by
          rcases Nat.eq_or_lt_of_le hqi with rfl | hlt2
          · exact hwf.laws.refl_le _
          · exact le_of_lt (wf_sorted_lt hwf hlt2 hilen)
        have := hwf.laws.trans_le _ _ _ hle (le_of_eq hieq)
        omega
    | none =>
      have hfq' : findFrom es (fun e => decide (0 ≤ cfg.cmp e.key target)) 0 = none := hfq
      refine ⟨not_valid_exhaustState cfg es s0.status, rfl, ?_⟩
      intro i hi
      have hfa := findFrom_none es _ hfq' i (Nat.zero_le i) hi
      simp only [decide_eq_false_iff_not, not_le] at hfa
      exact hfa

/-- Witness for C1 on the worked block: seeking `[97, 97]` ("aa") from the
fresh iterator lands on entry 1, the first entry with key `≥` the target. -/
theorem c1_witness :
    Iter.Valid cfgEx (Iter.Seek cfgEx [97, 97] (initState cfgEx)) = true ∧
    (Iter.Seek cfgEx [97, 97] (initState cfgEx)).key = (entAt esEx 1).key ∧
    (Iter.Seek cfgEx [97, 97] (initState cfgEx)).current = (entAt esEx 1).off ∧
    (Iter.Seek cfgEx [97, 97] (initState cfgEx)).status = (initState cfgEx).status ∧
    0 ≤ cfgEx.cmp (entAt esEx 1).key [97, 97] ∧
    (∀ i, i < 1 → cfgEx.cmp (entAt esEx i).key [97, 97] < 0) ∧
    (∀ i, i < esEx.length → cfgEx.cmp (entAt esEx i).key [97, 97] = 0 →
      cfgEx.cmp (entAt esEx 1).key [97, 97] = 0) := by
  have h := c1_seek_lower_bound cfgEx esEx [97, 97] (initState cfgEx) wfEx
    (Or.inl ⟨rfl, rfl⟩)
  rw [show lowerBoundIdx cfgEx esEx [97, 97] = some 1 from by decide] at h
  exact h

/-- C6: for every well-formed block with sorted entries and any legitimate
iterator state, calling `Seek(target)` a second time yields exactly the
state of the first call; and when the iterator is valid with its current
key comparing equal to the target, `Seek` returns with no state change. -/
theorem c6_seek_idempotent (cfg : BlockCfg) (es : List Entry) (target : List Nat)
    (s0 : IterState) (hwf : WFBlock cfg es) (hgood : GoodState cfg es s0) :
    Iter.Seek cfg target (Iter.Seek cfg target s0) = Iter.Seek cfg target s0 ∧
    (Iter.Valid cfg s0 = true → cfg.cmp s0.key target = 0 →
      Iter.Seek cfg target s0 = s0) := by
  have hfix : ∀ st, Iter.Seek cfg target (seekResult cfg es target st) =
      seekResult cfg es target st := by
    intro st
    have hg := seekResult_good hwf target st
    rw [seek_spec hwf target _ hg]
    by_cases h : Iter.Valid cfg (seekResult cfg es target st) = true ∧
        cfg.cmp (seekResult cfg es target st).key target = 0
    · rw [if_pos h]
    · rw [if_neg h]
      rw [seekResult_status]
  constructor
  · rw [seek_spec hwf target s0 hgood]
    by_cases hearly : Iter.Valid cfg s0 = true ∧ cfg.cmp s0.key target = 0
    · rw [if_pos hearly]
      rw [seek_spec hwf target s0 hgood, if_pos hearly]
    · rw [if_neg hearly]
      exact hfix s0.status
  · intro h1 h2
    rw [seek_spec hwf target s0 hgood, if_pos ⟨h1, h2⟩]

/-- Witness for C6 on the worked block: seeking `[97, 97]` twice from the
fresh iterator equals seeking once. -/
theorem c6_witness :
    Iter.Seek cfgEx [97, 97] (Iter.Seek cfgEx [97, 97] (initState cfgEx)) =
      Iter.Seek cfgEx [97, 97] (initState cfgEx) ∧
    (Iter.Valid cfgEx (initState cfgEx) = true →
      cfgEx.cmp (initState cfgEx).key [97, 97] = 0 →
      Iter.Seek cfgEx [97, 97] (initState cfgEx) = initState cfgEx) :=
  c6_seek_idempotent cfgEx esEx [97, 97] (initState cfgEx) wfEx (Or.inl ⟨rfl, rfl⟩)
